import Mathlib

/-!
# Verification of the vmmx-schema specification

Shallow embedding of `src/schema.ts` (the data model of a marble-machine
drop sequencer) together with the state-reconstruction engine the
specification describes on top of it (stream merger, bake reconciler,
event reducer, replay engine).  The schema source contains only type
declarations; every engine operation is therefore modelled from the
specification text and marked as such in its doc comment.
-/

set_option linter.unusedVariables false

namespace Vmmx

/-! ## Source data model (schema.ts) -/

/-- Modelled from the spec: `Note` is imported by the schema from
`./note_names`, a file that is not part of the sources.  The spec (section 6)
treats pitch identifiers as opaque tokens resolved by an external
note-naming table, so notes are embedded as plain string identifiers. -/
abbrev Note := String

/-- All possible drums that can be played (`DrumType`, schema.ts line 26). -/
inductive DrumType
  | bassdrum
  | hihat
  | snare
deriving DecidableEq, Repr

/-- A channel that can be muted (`Channel`, schema.ts line 43):
the union of the drum types with the vibraphone and bass channels. -/
inductive Channel
  | bassdrum
  | hihat
  | snare
  | vibraphone
  | bass
deriving DecidableEq, Repr

/-- The inclusion of `DrumType` into `Channel` given by the source's
union type `Channel = DrumType | "vibraphone" | "bass"`. -/
def DrumType.toChannel : DrumType → Channel
  | .bassdrum => .bassdrum
  | .hihat => .hihat
  | .snare => .snare

/-- A single string on the bass (`BassString`, schema.ts line 342):
the literal union `1 | 2 | 3 | 4`. -/
abbrev BassString := {n : ℕ // 1 ≤ n ∧ n ≤ 4}

/-- Every playable channel of the vibraphone (`VibraphoneChannel`,
schema.ts line 295): the literal union `1 | ... | 11`. -/
abbrev VibraphoneChannel := {n : ℕ // 1 ≤ n ∧ n ≤ 11}

/-- Source `MachineState` (schema.ts lines 238-245).  The `mute` object has one
optional boolean per channel; it is embedded as an association list, so a
channel key may be absent (unset = unmuted).  `bpm` is a numeric value,
embedded as a rational. -/
structure MachineState where
  mute : List (Channel × Bool)
  bpm : ℚ
  flywheelConnected : Bool
deriving DecidableEq

/-- Source `VibraphoneState` (schema.ts lines 300-312).  `notes` is a *required*
mapping: the TS mapped type `{ [VC in VibraphoneChannel]: Note }` has no `?`,
so every one of the 11 channels has an entry; it is embedded as a total
function.  The doc comment of the source states the notes cannot be changed
via events during a performance. -/
structure VibraphoneState where
  vibratoEnabled : Bool
  vibratoSpeed : ℚ
  notes : VibraphoneChannel → Note

/-- Source `BassState` (schema.ts lines 345-364).  Both `capos` and `tuning` are
*optional* mappings (`?` on the key), embedded as association lists where a
key may be absent (absent capo = none, absent tuning = standard tuning). -/
structure BassState where
  capos : List (BassString × ℕ)
  tuning : List (BassString × Note)
deriving DecidableEq

/-- Source `HihatMachineState` (schema.ts lines 382-385): an opaque setting token. -/
structure HihatMachineState where
  setting : String
deriving DecidableEq, Repr

/-- Source `HihatState` (schema.ts lines 402-405). -/
structure HihatState where
  closed : Bool
deriving DecidableEq

/-- The machine's `State` (schema.ts lines 101-107). -/
structure State where
  machine : MachineState
  vibraphone : VibraphoneState
  bass : BassState
  hihatMachine : HihatMachineState
  hihat : HihatState

/-- Source `BassDropEvent` (schema.ts lines 122-133): kind `"bass"`. -/
structure BassDropEvent where
  string : BassString
  fret : ℕ
deriving DecidableEq, Repr

/-- Source `DrumDropEvent` (schema.ts lines 136-140): kind `"drum"`. -/
structure DrumDropEvent where
  drum : DrumType
deriving DecidableEq, Repr

/-- Source `VibraphoneDropEvent` (schema.ts lines 143-156): kind `"vibraphone"`. -/
structure VibraphoneDropEvent where
  channel : VibraphoneChannel
deriving DecidableEq, Repr

/-- Source `DropEvent` (schema.ts line 110): the union of the three drop kinds. -/
inductive DropEvent
  | bass (e : BassDropEvent)
  | drum (e : DrumDropEvent)
  | vibraphone (e : VibraphoneDropEvent)
deriving DecidableEq, Repr

/-- Source `EventBakeType` (schema.ts lines 158-162). -/
inductive EventBakeType
  | AUTO
  | MODIFIED_AUTO
  | MANUAL
deriving DecidableEq, Repr

/-- Source `PerformanceDropEvent = DropEvent & CorePerformanceDropEvent`
(schema.ts lines 164-168): a drop together with its bake classification. -/
structure PerformanceDropEvent where
  drop : DropEvent
  bakeType : EventBakeType
deriving DecidableEq, Repr

/-- Source `ChannelMuteEvent` (schema.ts lines 253-259): kind `"machine_mute"`. -/
structure ChannelMuteEvent where
  channel : Channel
  muted : Bool
deriving DecidableEq, Repr

/-- Source `MachineTempoEvent` (schema.ts lines 268-272): kind `"machine_tempo"`. -/
structure MachineTempoEvent where
  bpm : ℚ
deriving DecidableEq, Repr

/-- Source `FlywheelConnectedEvent` (schema.ts lines 279-286):
kind `"machine_flywheelConnected"`. -/
structure FlywheelConnectedEvent where
  connected : Bool
deriving DecidableEq, Repr

/-- Source `MachineEvent` (schema.ts line 250).  The source union contains *only*
`ChannelMuteEvent`; `MachineTempoEvent` and `FlywheelConnectedEvent` are
declared in the source but are not members of this union. -/
abbrev MachineEvent := ChannelMuteEvent

/-- Source `VibraphoneVibratoEnabledEvent` (schema.ts lines 322-326). -/
structure VibraphoneVibratoEnabledEvent where
  vibratoEnabled : Bool
deriving DecidableEq, Repr

/-- Source `VibraphoneVibratoSpeedEvent` (schema.ts lines 329-333). -/
structure VibraphoneVibratoSpeedEvent where
  vibratoSpeed : ℚ
deriving DecidableEq, Repr

/-- Source `VibraphoneEvent` (schema.ts lines 317-319). -/
inductive VibraphoneEvent
  | enabled (e : VibraphoneVibratoEnabledEvent)
  | speed (e : VibraphoneVibratoSpeedEvent)
deriving DecidableEq, Repr

/-- Source `BassCapoEvent` (schema.ts lines 370-379): kind `"bass_capo"`;
fret `0` means the capo is removed. -/
structure BassCapoEvent where
  capoString : BassString
  fret : ℕ
deriving DecidableEq, Repr

/-- Source `BassEvent` (schema.ts line 367). -/
abbrev BassEvent := BassCapoEvent

/-- Source `HihatMachineSettingEvent` (schema.ts lines 391-399):
kind `"hihatmachine_setting"`; the event carries the whole new state. -/
structure HihatMachineSettingEvent where
  state : HihatMachineState
deriving DecidableEq, Repr

/-- Source `HihatMachineEvent` (schema.ts line 388). -/
abbrev HihatMachineEvent := HihatMachineSettingEvent

/-- Source `HihatClosedEvent` (schema.ts lines 411-415): kind `"hihat_closed"`. -/
structure HihatClosedEvent where
  closed : Bool
deriving DecidableEq, Repr

/-- Source `HihatEvent` (schema.ts line 408). -/
abbrev HihatEvent := HihatClosedEvent

/-- Source `Event` (schema.ts lines 223-229): the union of performance drop events
and the per-instrument parameter events.  Its machine member is
`MachineEvent`, which the source (line 250) defines as `ChannelMuteEvent`
alone. -/
inductive Event
  | perfDrop (e : PerformanceDropEvent)
  | machine (e : MachineEvent)
  | vibraphone (e : VibraphoneEvent)
  | hihatMachine (e : HihatMachineEvent)
  | hihat (e : HihatEvent)
  | bass (e : BassEvent)
deriving DecidableEq, Repr

/-- The `kind` discriminator carried by a `DropEvent` variant in the source. -/
def DropEvent.kind : DropEvent → String
  | .bass _ => "bass"
  | .drum _ => "drum"
  | .vibraphone _ => "vibraphone"

/-- The `kind` discriminator string carried by each member of the source's
`Event` union. -/
def Event.kind : Event → String
  | .perfDrop e => e.drop.kind
  | .machine _ => "machine_mute"
  | .vibraphone (.enabled _) => "vibraphone_vibrato_enabled"
  | .vibraphone (.speed _) => "vibraphone_vibrato_speed"
  | .hihatMachine _ => "hihatmachine_setting"
  | .hihat _ => "hihat_closed"
  | .bass _ => "bass_capo"

/-- Ticks per quarter note (`ProgramMetadata.tpq`, schema.ts line 91):
the literal type `240`. -/
def wheelTPQ : ℕ := 240

/-- Total ticks on the programming wheel (`ProgramMetadata.length`,
schema.ts line 95): the literal type `61440`. -/
def wheelLength : ℕ := 61440

/-- Source `ProgramMetadata` (schema.ts lines 77-98).  The `tpq` and `length`
fields have literal types and are embedded as the constants `wheelTPQ` and
`wheelLength`. -/
structure ProgramMetadata where
  title : String
  author : String
  version : String
  procrastination : Option ℚ
deriving DecidableEq, Repr

/-- Source `Program` (schema.ts lines 50-74): metadata, the working state, and the
ticked drop events, which must be in ascending order by tick.
`TickedDropEvent = TickedEvent & DropEvent` is embedded as a tick paired
with a drop event. -/
structure Program where
  metadata : ProgramMetadata
  state : State
  dropEvents : List (ℕ × DropEvent)

/-- Source `PerformanceMetadata` (schema.ts lines 203-214). -/
structure PerformanceMetadata where
  title : String
  author : String
deriving DecidableEq, Repr

/-- Source `Performance` (schema.ts lines 177-200): metadata, the associated
program, the frozen initial state, and the ascending-by-tick event list.
`TickedPerformanceEvent = TickedEvent & Event` is embedded as a tick paired
with a (source-union) event. -/
structure Performance where
  metadata : PerformanceMetadata
  program : Program
  initialState : State
  events : List (ℕ × Event)

/-! ## Spec-modelled engine: event and error types -/

/-- Modelled from the spec (section 7): the validation error kinds of the
core.  The sources contain no engine, only the schema. -/
inductive VError
  | UnsortedEventStream
  | ConflictingReconciliation
  | OutOfRangeValue
  | TickOutOfBounds
deriving DecidableEq, Repr

/-- Modelled from the spec (section 4.2): the state-mutating event kinds the
reducer has one rule for.  The payloads reuse the source's event structures.
Note that the reducer of the spec also handles `machine_tempo` and
`machine_flywheelConnected`, which the source's `Event` union omits (its
`MachineEvent` is `ChannelMuteEvent` alone). -/
inductive StateEvent
  | machineMute (e : ChannelMuteEvent)
  | machineTempo (e : MachineTempoEvent)
  | machineFlywheel (e : FlywheelConnectedEvent)
  | vibratoEnabled (e : VibraphoneVibratoEnabledEvent)
  | vibratoSpeed (e : VibraphoneVibratoSpeedEvent)
  | bassCapo (e : BassCapoEvent)
  | hihatMachineSetting (e : HihatMachineSettingEvent)
  | hihatClosed (e : HihatClosedEvent)
deriving DecidableEq, Repr

/-- Modelled from the spec (sections 3 and 4.2): a performance event as the
engine consumes it, either a drop with bake metadata or a state-mutating
event.  This is the source's `Event` union extended with the tempo and
flywheel events that the spec's reducer requires but the source union
omits. -/
inductive PerfEvent
  | drop (e : PerformanceDropEvent)
  | state (e : StateEvent)
deriving DecidableEq, Repr

/-- The inclusion of the source's `Event` union into the engine's
performance-event type. -/
def Event.toPerfEvent : Event → PerfEvent
  | .perfDrop e => .drop e
  | .machine e => .state (.machineMute e)
  | .vibraphone (.enabled e) => .state (.vibratoEnabled e)
  | .vibraphone (.speed e) => .state (.vibratoSpeed e)
  | .hihatMachine e => .state (.hihatMachineSetting e)
  | .hihat e => .state (.hihatClosed e)
  | .bass e => .state (.bassCapo e)

/-- Modelled from the spec (sections 4.3-4.5): a canonical event of the
merged, reconciled sequence -- either a fired drop or a state event. -/
inductive REvent
  | drop (d : DropEvent)
  | state (e : StateEvent)
deriving DecidableEq, Repr

/-- Modelled from the spec (section 4.3): the provenance of a merged event.
A `reconciled` unit combines a program drop with its matching performance
drop event; `program` marks an unmatched program drop; `performance` marks
an unmatched performance event. -/
inductive Source
  | reconciled
  | program
  | performance
deriving DecidableEq, Repr

/-- Modelled from the spec (section 4.3): an element of the merger's output,
a canonical event with its tick and provenance. -/
structure MergedEvent where
  tick : ℕ
  source : Source
  ev : REvent
deriving DecidableEq, Repr

/-- The tie-break rank of a provenance at equal tick (spec section 4.3,
rules 2 and 3): reconciled units first, then unrelated program-sourced
events, then unrelated performance-sourced events. -/
def srcOrd : Source → ℕ
  | .reconciled => 0
  | .program => 1
  | .performance => 2

/-! ## Spec-modelled engine: stream merger and bake reconciler -/

/-- The channel a drop event refers to, scoping reconciliation (spec
section 4.4: reconciliation is always scoped to (tick, channel)).  A bass
drop is on the bass channel, a vibraphone drop on the vibraphone channel,
and a drum drop on its drum's channel. -/
def dropChannel : DropEvent → Channel
  | .bass _ => .bass
  | .drum e => e.drum.toChannel
  | .vibraphone _ => .vibraphone

/-- Whether a ticked event list is in ascending (non-decreasing) order by
tick.  Modelled from the source's contract on `Program.dropEvents` and
`Performance.events` ("must be in ascending order by tick"); the source
explicitly allows several events at one tick ("Multiple simultaneous
changes must be represented by multiple events with the same tick",
schema.ts lines 220-221), so ascending is non-strict. -/
def ascendingBy : List (ℕ × α) → Bool
  | [] => true
  | [_] => true
  | a :: b :: l => decide (a.1 ≤ b.1) && ascendingBy (b :: l)

/-- Insert a tick into a strictly ascending list of ticks, keeping it
strictly ascending (duplicates are dropped). -/
def insTick (t : ℕ) : List ℕ → List ℕ
  | [] => [t]
  | a :: l =>
    if t < a then t :: a :: l
    else if t = a then a :: l
    else a :: insTick t l

/-- The strictly ascending list of all ticks occurring in either input
stream. -/
def tickUnion (prog : List (ℕ × DropEvent)) (perf : List (ℕ × PerfEvent)) :
    List ℕ :=
  (prog.map (·.1) ++ perf.map (·.1)).foldr insTick []

/-- The program drops scheduled at one tick, in authoring order. -/
def selD (prog : List (ℕ × DropEvent)) (t : ℕ) : List DropEvent :=
  (prog.filter (fun p => p.1 == t)).map (·.2)

/-- The performance events at one tick, in authoring order. -/
def selP (perf : List (ℕ × PerfEvent)) (t : ℕ) : List PerfEvent :=
  (perf.filter (fun q => q.1 == t)).map (·.2)

/-- The drop part of a performance event, if any. -/
def PerfEvent.dropPart : PerfEvent → Option PerformanceDropEvent
  | .drop e => some e
  | .state _ => none

/-- The performance drop event matching a program drop: the first (and,
after validation, only) performance drop at this tick on the same channel
(spec section 4.4). -/
def matchFor (pdrops : List PerformanceDropEvent) (d : DropEvent) :
    Option PerformanceDropEvent :=
  pdrops.find? (fun e => dropChannel e.drop == dropChannel d)

/-- Whether a performance drop event collides with some program drop of the
same tick on its channel. -/
def hasProgMatch (ps : List DropEvent) (e : PerformanceDropEvent) : Bool :=
  ps.any (fun d => dropChannel d == dropChannel e.drop)

/-- The placement parameters of a reconciled firing (spec section 4.4):
`MODIFIED_AUTO` replaces the program drop's parameters by the performance
event's; `AUTO` fires the program drop unchanged. -/
def firedParams (d : DropEvent) (e : PerformanceDropEvent) : DropEvent :=
  match e.bakeType with
  | .MODIFIED_AUTO => e.drop
  | _ => d

/-- The reconciled units of one tick: each program drop that has a matching
performance drop event fires once with the reconciled parameters, in
program authoring order. -/
def rtA (t : ℕ) (ps : List DropEvent) (pdrops : List PerformanceDropEvent) :
    List MergedEvent :=
  ps.filterMap (fun d =>
    (matchFor pdrops d).map (fun e =>
      MergedEvent.mk t .reconciled (.drop (firedParams d e))))

/-- The unmatched program drops of one tick, firing unmodified in authoring
order (implicit `AUTO`, spec section 4.4). -/
def rtB (t : ℕ) (ps : List DropEvent) (pdrops : List PerformanceDropEvent) :
    List MergedEvent :=
  ps.filterMap (fun d =>
    match matchFor pdrops d with
    | some _ => none
    | none => some (MergedEvent.mk t .program (.drop d)))

/-- The unmatched performance events of one tick, in authoring order: state
events, and `MANUAL` drops that collide with no program drop. -/
def rtC (t : ℕ) (ps : List DropEvent) (qs : List PerfEvent) :
    List MergedEvent :=
  qs.filterMap (fun q =>
    match q with
    | .state se => some (MergedEvent.mk t .performance (.state se))
    | .drop e =>
      if hasProgMatch ps e then none
      else some (MergedEvent.mk t .performance (.drop e.drop)))

/-- Modelled from the spec (section 4.4): the bake reconciler for a single
tick.  It validates that a tick/channel has at most one reconciled outcome:
no two program drops on one channel, no two performance drops targeting one
channel, no `MANUAL` drop colliding with a program drop on its own channel,
and no `AUTO`/`MODIFIED_AUTO` drop without an underlying program drop (the
open question of section 9, which the spec resolves as a validation
error).  On success it emits the reconciled units first, then the unmatched
program drops, then the unmatched performance events (spec section 4.3,
rules 2 and 3). -/
def reconcileTick (t : ℕ) (ps : List DropEvent) (qs : List PerfEvent) :
    Except VError (List MergedEvent) :=
  let pdrops := qs.filterMap PerfEvent.dropPart
  if (decide (ps.map dropChannel).Nodup
      && decide ((pdrops.map (fun e => dropChannel e.drop)).Nodup)
      && !(pdrops.any (fun e => hasProgMatch ps e && e.bakeType == .MANUAL))
      && !(pdrops.any (fun e =>
            !hasProgMatch ps e && !(e.bakeType == .MANUAL)))) = true
  then .ok (rtA t ps pdrops ++ rtB t ps pdrops ++ rtC t ps qs)
  else .error .ConflictingReconciliation

/-- Monadic map over `Except`, written out so its equations are directly
available to induction. -/
def exceptMapM (f : α → Except ε β) : List α → Except ε (List β)
  | [] => .ok []
  | a :: l => do
    let b ← f a
    let bs ← exceptMapM f l
    pure (b :: bs)

/-- Concatenation of a list of lists. -/
def joinAll : List (List α) → List α
  | [] => []
  | l :: L => l ++ joinAll L

/-- Modelled from the spec (sections 4.3 and 4.4): the stream merger and
bake reconciler.  Both input streams must already be ascending by tick;
otherwise the merger fails with `UnsortedEventStream` and never re-sorts.
On sorted inputs the events are grouped by tick, each tick group is
reconciled, and the groups are emitted in ascending tick order. -/
def mergeReconcile (prog : List (ℕ × DropEvent))
    (perf : List (ℕ × PerfEvent)) : Except VError (List MergedEvent) :=
  if ascendingBy prog && ascendingBy perf then
    (exceptMapM (fun t => reconcileTick t (selD prog t) (selP perf t))
      (tickUnion prog perf)).map joinAll
  else .error .UnsortedEventStream

/-! ## Spec-modelled engine: event reducer and replay engine -/

/-- Set a key in an association-list object, replacing an existing entry. -/
def setKey [DecidableEq κ] (k : κ) (v : α) : List (κ × α) → List (κ × α)
  | [] => [(k, v)]
  | (k', v') :: l => if k = k' then (k, v) :: l else (k', v') :: setKey k v l

/-- Remove a key from an association-list object. -/
def removeKey [DecidableEq κ] (k : κ) : List (κ × α) → List (κ × α)
  | [] => []
  | (k', v') :: l => if k = k' then removeKey k l else (k', v') :: removeKey k l

/-- Modelled from the spec (section 4.2): the event reducer, one pure rule
per event kind.  Drops mutate nothing.  `machine_tempo` rejects a
non-positive bpm and `vibraphone_vibrato_speed` rejects a speed outside
`[0, 1]`, both with `OutOfRangeValue`; every other rule is total. -/
def applyEvent (s : State) : REvent → Except VError State
  | .drop _ => .ok s
  | .state (.machineMute e) =>
    .ok { s with machine := { s.machine with
            mute := setKey e.channel e.muted s.machine.mute } }
  | .state (.machineTempo e) =>
    if e.bpm ≤ 0 then .error .OutOfRangeValue
    else .ok { s with machine := { s.machine with bpm := e.bpm } }
  | .state (.machineFlywheel e) =>
    .ok { s with machine := { s.machine with flywheelConnected := e.connected } }
  | .state (.vibratoEnabled e) =>
    .ok { s with vibraphone := { s.vibraphone with
            vibratoEnabled := e.vibratoEnabled } }
  | .state (.vibratoSpeed e) =>
    if e.vibratoSpeed < 0 ∨ 1 < e.vibratoSpeed then .error .OutOfRangeValue
    else .ok { s with vibraphone := { s.vibraphone with
            vibratoSpeed := e.vibratoSpeed } }
  | .state (.bassCapo e) =>
    .ok { s with bass := { s.bass with
            capos := if e.fret = 0 then removeKey e.capoString s.bass.capos
                     else setKey e.capoString e.fret s.bass.capos } }
  | .state (.hihatMachineSetting e) =>
    .ok { s with hihatMachine := e.state }
  | .state (.hihatClosed e) =>
    .ok { s with hihat := HihatState.mk e.closed }

/-- Modelled from the spec (sections 4.5 and 6): the performance-side input
of the replay engine -- the frozen initial state and the ascending event
list, with the engine's performance-event type (the source's `Event` union
extended by the tempo and flywheel events the spec requires). -/
structure PerformanceInput where
  initialState : State
  events : List (ℕ × PerfEvent)

/-- One replay step (spec sections 4.2 and 4.5): the reducer is applied to
the state; a fired drop additionally appends a "drop occurred" emission to
the side channel. -/
def replayStep (acc : State × List (ℕ × DropEvent)) (m : MergedEvent) :
    Except VError (State × List (ℕ × DropEvent)) := do
  let s ← applyEvent acc.1 m.ev
  match m.ev with
  | .drop d => pure (s, acc.2 ++ [(m.tick, d)])
  | .state _ => pure (s, acc.2)

/-- Monadic left fold over `Except`, written out for induction. -/
def exceptFoldl (f : β → α → Except ε β) : β → List α → Except ε β
  | b, [] => .ok b
  | b, a :: l => do
    let b' ← f b a
    exceptFoldl f b' l

/-- Modelled from the spec (section 4.5): the replay engine.  It merges and
reconciles the two streams, then folds the reducer over every canonical
event up to and including the target tick, seeded with the performance's
initial state, collecting the drop emissions.  Ticks are naturals, so a
negative target (`TickOutOfBounds`) cannot arise in the embedding. -/
def replayTo (prog : Program) (pf : PerformanceInput) (target : ℕ) :
    Except VError (State × List (ℕ × DropEvent)) := do
  let ms ← mergeReconcile prog.dropEvents pf.events
  exceptFoldl replayStep (pf.initialState, [])
    (ms.filter (fun m => decide (m.tick ≤ target)))

/-- Modelled from the spec (section 4.5): `stateAt` returns the state at the
target tick. -/
def stateAt (prog : Program) (pf : PerformanceInput) (target : ℕ) :
    Except VError State :=
  (replayTo prog pf target).map Prod.fst

/-- The drop emissions produced up to and including the target tick. -/
def emissionsTo (prog : Program) (pf : PerformanceInput) (target : ℕ) :
    Except VError (List (ℕ × DropEvent)) :=
  (replayTo prog pf target).map Prod.snd

/-- A sequence of `stateAt` queries, used to express that answers do not
depend on which or how many queries were made before. -/
def runQueries (prog : Program) (pf : PerformanceInput) (targets : List ℕ) :
    List (Except VError State) :=
  targets.map (stateAt prog pf)

/-! ## Helper lemmas: Except combinators -/

@[simp] theorem ok_bind (b : β) (g : β → Except ε γ) :
    (Except.ok b).bind g = g b := rfl

@[simp] theorem error_bind (e : ε) (g : β → Except ε γ) :
    (Except.error e : Except ε β).bind g = .error e := rfl

@[simp] theorem ok_map (b : β) (g : β → γ) :
    (Except.ok b : Except ε β).map g = .ok (g b) := rfl

@[simp] theorem error_map (e : ε) (g : β → γ) :
    (Except.error e : Except ε β).map g = .error e := rfl

theorem exceptMapM_nil (f : α → Except ε β) : exceptMapM f [] = .ok [] := rfl

theorem exceptMapM_cons (f : α → Except ε β) (a : α) (l : List α) :
    exceptMapM f (a :: l) =
      (f a).bind (fun b => (exceptMapM f l).bind (fun bs => .ok (b :: bs))) :=
  rfl

theorem exceptMapM_ok {f : α → Except ε β} :
    ∀ {l : List α} {bs : List β}, exceptMapM f l = .ok bs →
      List.Forall₂ (fun a b => f a = .ok b) l bs := by
  intro l
  induction l with
  | nil =>
    intro bs h
    rw [exceptMapM_nil] at h
    cases h
    exact .nil
  | cons a l ih =>
    intro bs h
    rw [exceptMapM_cons] at h
    cases hfa : f a with
    | error e => rw [hfa] at h; simp at h
    | ok b =>
      rw [hfa] at h
      cases hml : exceptMapM f l with
      | error e => rw [hml] at h; simp at h
      | ok bs' =>
        rw [hml] at h
        simp at h
        cases h
        exact .cons hfa (ih hml)

theorem exceptMapM_error {f : α → Except ε β} :
    ∀ {l : List α} {e : ε}, exceptMapM f l = .error e → ∃ a ∈ l, f a = .error e := by
  intro l
  induction l with
  | nil => intro e h; rw [exceptMapM_nil] at h; cases h
  | cons a l ih =>
    intro e h
    rw [exceptMapM_cons] at h
    cases hfa : f a with
    | error e' =>
      rw [hfa] at h; simp at h
      exact ⟨a, by simp, by rw [hfa, h]⟩
    | ok b =>
      rw [hfa] at h
      cases hml : exceptMapM f l with
      | error e' =>
        rw [hml] at h; simp at h
        obtain ⟨a', ha', hfa'⟩ := ih (hml.trans (by rw [h]))
        exact ⟨a', by simp [ha'], hfa'⟩
      | ok bs' => rw [hml] at h; simp at h

theorem exceptFoldl_nil (f : β → α → Except ε β) (b : β) :
    exceptFoldl f b [] = .ok b := rfl

theorem exceptFoldl_cons (f : β → α → Except ε β) (b : β) (a : α) (l : List α) :
    exceptFoldl f b (a :: l) = (f b a).bind (fun b' => exceptFoldl f b' l) :=
  rfl

theorem exceptFoldl_inv {f : β → α → Except ε β} (P : β → Prop)
    (hstep : ∀ b a b', f b a = .ok b' → P b → P b') :
    ∀ {l : List α} {b b'}, exceptFoldl f b l = .ok b' → P b → P b' := by
  intro l
  induction l with
  | nil => intro b b' h hb; rw [exceptFoldl_nil] at h; cases h; exact hb
  | cons a l ih =>
    intro b b' h hb
    rw [exceptFoldl_cons] at h
    cases hfa : f b a with
    | error e => rw [hfa] at h; simp at h
    | ok b₁ =>
      rw [hfa] at h
      simp at h
      exact ih h (hstep b a b₁ hfa hb)

theorem bool_and_elim {a b : Bool} (h : (a && b) = true) :
    a = true ∧ b = true := by
  rw [Bool.and_eq_true] at h
  exact h

theorem bool_not_elim {b : Bool} (h : (!b) = true) : b = false := by
  cases b
  · rfl
  · exact Bool.noConfusion h

/-! ## Helper lemmas: joinAll and Forall₂ -/

@[simp] theorem joinAll_nil : joinAll ([] : List (List α)) = [] := rfl

@[simp] theorem joinAll_cons (l : List α) (L : List (List α)) :
    joinAll (l :: L) = l ++ joinAll L := rfl

theorem filter_joinAll (p : α → Bool) (L : List (List α)) :
    (joinAll L).filter p = joinAll (L.map (·.filter p)) := by
  induction L with
  | nil => rfl
  | cons l L ih => simp [List.filter_append, ih]

theorem map_joinAll (f : α → β) (L : List (List α)) :
    (joinAll L).map f = joinAll (L.map (·.map f)) := by
  induction L with
  | nil => rfl
  | cons l L ih => simp [ih]

theorem mem_joinAll {x : α} {L : List (List α)} :
    x ∈ joinAll L ↔ ∃ l ∈ L, x ∈ l := by
  induction L with
  | nil => simp
  | cons l L ih => simp [ih]

theorem forall₂_mem_right {f : α → β → Prop} :
    ∀ {l : List α} {L : List β}, List.Forall₂ f l L → ∀ {b}, b ∈ L →
      ∃ a ∈ l, f a b := by
  intro l L h
  induction h with
  | nil => intro b hb; cases hb
  | cons hab htail ih =>
    intro b hb
    rcases List.mem_cons.mp hb with rfl | hb
    · exact ⟨_, by simp, hab⟩
    · obtain ⟨a, ha, hfa⟩ := ih hb
      exact ⟨a, by simp [ha], hfa⟩

theorem forall₂_map {f : α → β → Prop} {S : β' → α' → Prop} {g : β → β'}
    {k : α → α'} :
    ∀ {l : List α} {L : List β}, List.Forall₂ f l L →
      (∀ a b, f a b → S (g b) (k a)) → List.Forall₂ S (L.map g) (l.map k) := by
  intro l L h himp
  induction h with
  | nil => exact .nil
  | cons hab htail ih => exact .cons (himp _ _ hab) ih

theorem joinAll_sublist {L₁ L₂ : List (List α)}
    (h : List.Forall₂ (·.Sublist ·) L₁ L₂) : (joinAll L₁).Sublist (joinAll L₂) := by
  induction h with
  | nil => simp
  | cons hl htail ih => exact hl.append ih

theorem pairwise_joinAll {R : α → α → Prop} :
    ∀ {L : List (List α)}, (∀ l ∈ L, l.Pairwise R) →
      L.Pairwise (fun l₁ l₂ => ∀ a ∈ l₁, ∀ b ∈ l₂, R a b) →
      (joinAll L).Pairwise R := by
  intro L
  induction L with
  | nil => intro _ _; exact .nil
  | cons l L ih =>
    intro hall hcross
    rw [joinAll_cons, List.pairwise_append]
    rw [List.pairwise_cons] at hcross
    refine ⟨hall l (by simp), ih (fun l' hl' => hall l' (by simp [hl'])) hcross.2, ?_⟩
    intro a ha b hb
    obtain ⟨l', hl', hbl'⟩ := mem_joinAll.mp hb
    exact hcross.1 l' hl' a ha b hbl'

theorem filterMap_map_sublist (f : α → Option β) (g : β → γ) (h : α → γ)
    (hfg : ∀ a b, f a = some b → g b = h a) :
    ∀ l : List α, ((l.filterMap f).map g).Sublist (l.map h) := by
  intro l
  induction l with
  | nil => simp
  | cons a l ih =>
    cases hfa : f a with
    | none =>
      rw [List.filterMap_cons_none hfa, List.map_cons]
      exact ih.cons _
    | some b =>
      rw [List.filterMap_cons_some hfa, List.map_cons, List.map_cons,
        hfg a b hfa]
      exact ih.cons₂ _

/-! ## Helper lemmas: association of elements by key -/

theorem eq_of_nodup_key {κ : Type u} (key : α → κ) :
    ∀ {l : List α}, (l.map key).Nodup → ∀ {x y}, x ∈ l → y ∈ l →
      key x = key y → x = y := by
  intro l
  induction l with
  | nil => intro _ x y hx; cases hx
  | cons a l ih =>
    intro hnd x y hx hy hxy
    rw [List.map_cons, List.nodup_cons] at hnd
    rcases List.mem_cons.mp hx with rfl | hx'
    · rcases List.mem_cons.mp hy with rfl | hy'
      · rfl
      · exact absurd (hxy ▸ List.mem_map_of_mem key hy') hnd.1
    · rcases List.mem_cons.mp hy with rfl | hy'
      · exact absurd (hxy ▸ List.mem_map_of_mem key hx') hnd.1
      · exact ih hnd.2 hx' hy' hxy

theorem find?_key_unique {κ : Type u} [DecidableEq κ] (key : α → κ) :
    ∀ {l : List α}, (l.map key).Nodup → ∀ {x : α}, x ∈ l → ∀ {c : κ},
      key x = c → l.find? (fun y => key y == c) = some x := by
  intro l
  induction l with
  | nil => intro _ x hx; cases hx
  | cons a l ih =>
    intro hnd x hx c hkey
    rw [List.map_cons, List.nodup_cons] at hnd
    rcases List.mem_cons.mp hx with rfl | hx
    · rw [List.find?_cons_of_pos _ (by simp [hkey])]
    · have hne : key a ≠ c := by
        intro hac
        exact hnd.1 (by
          rw [hac, ← hkey]
          exact List.mem_map_of_mem key hx)
      rw [List.find?_cons_of_neg _ (by simp [hne])]
      exact ih hnd.2 hx hkey

/-! ## Helper lemmas: tick union and ascending streams -/

theorem mem_insTick {t : ℕ} :
    ∀ {l : List ℕ} {x : ℕ}, x ∈ insTick t l ↔ x = t ∨ x ∈ l := by
  intro l
  induction l with
  | nil => intro x; simp [insTick]
  | cons a l ih =>
    intro x
    rw [insTick]
    split
    · simp [or_comm, List.mem_cons]
    · split
      · subst ‹t = a›; simp [List.mem_cons]
      · simp [List.mem_cons, ih, or_left_comm]

theorem insTick_pairwise {t : ℕ} :
    ∀ {l : List ℕ}, l.Pairwise (· < ·) → (insTick t l).Pairwise (· < ·) := by
  intro l
  induction l with
  | nil => intro _; simp [insTick]
  | cons a l ih =>
    intro h
    rw [List.pairwise_cons] at h
    rw [insTick]
    split
    · exact List.pairwise_cons.mpr ⟨by
        intro y hy
        rcases List.mem_cons.mp hy with rfl | hy
        · assumption
        · exact lt_trans ‹t < a› (h.1 y hy), List.pairwise_cons.mpr h⟩
    · split
      · exact List.pairwise_cons.mpr h
      · have hat : a < t := by omega
        refine List.pairwise_cons.mpr ⟨?_, ih h.2⟩
        intro y hy
        rcases mem_insTick.mp hy with rfl | hy
        · exact hat
        · exact h.1 y hy

theorem tickUnion_pairwise (prog : List (ℕ × DropEvent))
    (perf : List (ℕ × PerfEvent)) :
    (tickUnion prog perf).Pairwise (· < ·) := by
  rw [tickUnion]
  generalize (prog.map (·.1) ++ perf.map (·.1)) = l
  induction l with
  | nil => exact .nil
  | cons a l ih => exact insTick_pairwise ih

theorem mem_foldr_insTick :
    ∀ {l : List ℕ} {x : ℕ}, x ∈ l.foldr insTick [] ↔ x ∈ l := by
  intro l
  induction l with
  | nil => intro x; simp
  | cons a l ih => intro x; simp [mem_insTick, ih]

theorem mem_tickUnion {prog : List (ℕ × DropEvent)}
    {perf : List (ℕ × PerfEvent)} {x : ℕ} :
    x ∈ tickUnion prog perf ↔ x ∈ prog.map (·.1) ∨ x ∈ perf.map (·.1) := by
  rw [tickUnion, mem_foldr_insTick, List.mem_append]

theorem ascendingBy_tail {a : ℕ × α} {l : List (ℕ × α)}
    (h : ascendingBy (a :: l) = true) : ascendingBy l = true := by
  cases l with
  | nil => rfl
  | cons b l =>
    rw [ascendingBy] at h
    exact (bool_and_elim h).2

theorem ascendingBy_head_le {a : ℕ × α} :
    ∀ {l : List (ℕ × α)}, ascendingBy (a :: l) = true → ∀ y ∈ l, a.1 ≤ y.1 := by
  intro l
  induction l generalizing a with
  | nil => intro _ y hy; cases hy
  | cons b l ih =>
    intro h y hy
    rw [ascendingBy] at h
    obtain ⟨hab, hbl⟩ := bool_and_elim h
    have hab' : a.1 ≤ b.1 := of_decide_eq_true hab
    rcases List.mem_cons.mp hy with rfl | hy
    · exact hab'
    · exact le_trans hab' (ih hbl y hy)

theorem ascendingBy_dropWhile {p : ℕ × α → Bool} :
    ∀ {l : List (ℕ × α)}, ascendingBy l = true →
      ascendingBy (l.dropWhile p) = true := by
  intro l
  induction l with
  | nil => intro _; rfl
  | cons a l ih =>
    intro h
    rw [List.dropWhile_cons]
    split
    · exact ih (ascendingBy_tail h)
    · exact h

/-! ## Lemmas about the bake reconciler -/

/-- Whether a merged event is a fired drop on the given channel. -/
def firedOn (c : Channel) (m : MergedEvent) : Bool :=
  match m.ev with
  | .drop d => dropChannel d == c
  | .state _ => false

theorem mem_rtA {t : ℕ} {ps : List DropEvent}
    {pdrops : List PerformanceDropEvent} {x : MergedEvent} :
    x ∈ rtA t ps pdrops ↔ ∃ d ∈ ps, ∃ e, matchFor pdrops d = some e ∧
      x = ⟨t, .reconciled, .drop (firedParams d e)⟩ := by
  simp only [rtA, List.mem_filterMap, Option.map_eq_some']
  constructor
  · rintro ⟨d, hd, e, he, rfl⟩
    exact ⟨d, hd, e, he, rfl⟩
  · rintro ⟨d, hd, e, he, rfl⟩
    exact ⟨d, hd, e, he, rfl⟩

theorem mem_rtB {t : ℕ} {ps : List DropEvent}
    {pdrops : List PerformanceDropEvent} {x : MergedEvent} :
    x ∈ rtB t ps pdrops ↔ ∃ d ∈ ps, matchFor pdrops d = none ∧
      x = ⟨t, .program, .drop d⟩ := by
  simp only [rtB, List.mem_filterMap]
  constructor
  · rintro ⟨d, hd, he⟩
    cases hm : matchFor pdrops d with
    | some e => rw [hm] at he; cases he
    | none => rw [hm] at he; cases he; exact ⟨d, hd, hm, rfl⟩
  · rintro ⟨d, hd, hm, rfl⟩
    exact ⟨d, hd, by rw [hm]⟩

theorem mem_rtC {t : ℕ} {ps : List DropEvent} {qs : List PerfEvent}
    {x : MergedEvent} :
    x ∈ rtC t ps qs ↔
      (∃ se, PerfEvent.state se ∈ qs ∧ x = ⟨t, .performance, .state se⟩) ∨
      (∃ e, PerfEvent.drop e ∈ qs ∧ hasProgMatch ps e = false ∧
        x = ⟨t, .performance, .drop e.drop⟩) := by
  simp only [rtC, List.mem_filterMap]
  constructor
  · rintro ⟨q, hq, he⟩
    cases q with
    | state se =>
      cases he
      exact Or.inl ⟨se, hq, rfl⟩
    | drop e =>
      simp only at he
      split at he
      · cases he
      · cases he
        exact Or.inr ⟨e, hq, by simpa using ‹¬hasProgMatch ps e = true›, rfl⟩
  · rintro (⟨se, hq, rfl⟩ | ⟨e, hq, hnm, rfl⟩)
    · exact ⟨.state se, hq, rfl⟩
    · exact ⟨.drop e, hq, by simp [hnm]⟩

theorem reconcileTick_error {t : ℕ} {ps : List DropEvent} {qs : List PerfEvent}
    {e : VError} (h : reconcileTick t ps qs = .error e) :
    e = .ConflictingReconciliation := by
  rw [reconcileTick] at h
  split at h
  · cases h
  · cases h; rfl

theorem reconcileTick_ok {t : ℕ} {ps : List DropEvent} {qs : List PerfEvent}
    {B : List MergedEvent} (h : reconcileTick t ps qs = .ok B) :
    (ps.map dropChannel).Nodup ∧
    (((qs.filterMap PerfEvent.dropPart).map
        (fun e => dropChannel e.drop)).Nodup) ∧
    (∀ e ∈ qs.filterMap PerfEvent.dropPart,
        ¬(hasProgMatch ps e = true ∧ e.bakeType = .MANUAL)) ∧
    (∀ e ∈ qs.filterMap PerfEvent.dropPart,
        hasProgMatch ps e = true ∨ e.bakeType = .MANUAL) ∧
    B = rtA t ps (qs.filterMap PerfEvent.dropPart) ++
        rtB t ps (qs.filterMap PerfEvent.dropPart) ++ rtC t ps qs := by
  rw [reconcileTick] at h
  split at h
  case isTrue hg =>
    cases h
    obtain ⟨hg, h4⟩ := bool_and_elim hg
    obtain ⟨hg, h3⟩ := bool_and_elim hg
    obtain ⟨h1, h2⟩ := bool_and_elim hg
    refine ⟨of_decide_eq_true h1, of_decide_eq_true h2, ?_, ?_, rfl⟩
    · intro e he
      have := List.any_eq_false.mp (bool_not_elim h3) e he
      rintro ⟨hm, hb⟩
      rw [hm, hb] at this
      simp at this
    · intro e he
      have hfalse := List.any_eq_false.mp (bool_not_elim h4) e he
      rcases hpm : hasProgMatch ps e with _ | _
      · refine Or.inr ?_
        rw [hpm] at hfalse
        cases hbt : (e.bakeType == EventBakeType.MANUAL) with
        | false => exact absurd (by rw [hbt]; rfl) hfalse
        | true => exact beq_iff_eq.mp hbt
      · exact Or.inl rfl
  case isFalse => cases h

theorem reconcileTick_mem_tick {t : ℕ} {ps : List DropEvent}
    {qs : List PerfEvent} {B : List MergedEvent}
    (h : reconcileTick t ps qs = .ok B) : ∀ x ∈ B, x.tick = t := by
  obtain ⟨-, -, -, -, rfl⟩ := reconcileTick_ok h
  intro x hx
  rcases List.mem_append.mp hx with hx | hx
  · rcases List.mem_append.mp hx with hx | hx
    · obtain ⟨d, -, e, -, rfl⟩ := mem_rtA.mp hx
      rfl
    · obtain ⟨d, -, -, rfl⟩ := mem_rtB.mp hx
      rfl
  · rcases mem_rtC.mp hx with ⟨se, -, rfl⟩ | ⟨e, -, -, rfl⟩ <;> rfl

theorem mem_rtA_source {t : ℕ} {ps : List DropEvent}
    {pdrops : List PerformanceDropEvent} {x : MergedEvent}
    (hx : x ∈ rtA t ps pdrops) : x.source = Source.reconciled := by
  obtain ⟨d, -, e, -, rfl⟩ := mem_rtA.mp hx
  rfl

theorem mem_rtB_source {t : ℕ} {ps : List DropEvent}
    {pdrops : List PerformanceDropEvent} {x : MergedEvent}
    (hx : x ∈ rtB t ps pdrops) : x.source = Source.program := by
  obtain ⟨d, -, -, rfl⟩ := mem_rtB.mp hx
  rfl

theorem mem_rtC_source {t : ℕ} {ps : List DropEvent} {qs : List PerfEvent}
    {x : MergedEvent} (hx : x ∈ rtC t ps qs) :
    x.source = Source.performance := by
  rcases mem_rtC.mp hx with ⟨se, -, rfl⟩ | ⟨e, -, -, rfl⟩ <;> rfl

theorem reconcileTick_filter_program {t : ℕ} {ps : List DropEvent}
    {qs : List PerfEvent} {B : List MergedEvent}
    (h : reconcileTick t ps qs = .ok B) :
    B.filter (fun x => x.source == Source.program) =
      rtB t ps (qs.filterMap PerfEvent.dropPart) := by
  obtain ⟨-, -, -, -, rfl⟩ := reconcileTick_ok h
  rw [List.filter_append, List.filter_append]
  rw [List.filter_eq_nil_iff.mpr (fun x hx => by
        simp [mem_rtA_source hx]),
    List.filter_eq_self.mpr (fun x hx => by
        simp [mem_rtB_source hx]),
    List.filter_eq_nil_iff.mpr (fun x hx => by
        simp [mem_rtC_source hx])]
  simp

theorem reconcileTick_filter_performance {t : ℕ} {ps : List DropEvent}
    {qs : List PerfEvent} {B : List MergedEvent}
    (h : reconcileTick t ps qs = .ok B) :
    B.filter (fun x => x.source == Source.performance) = rtC t ps qs := by
  obtain ⟨-, -, -, -, rfl⟩ := reconcileTick_ok h
  rw [List.filter_append, List.filter_append]
  rw [List.filter_eq_nil_iff.mpr (fun x hx => by
        simp [mem_rtA_source hx]),
    List.filter_eq_nil_iff.mpr (fun x hx => by
        simp [mem_rtB_source hx]),
    List.filter_eq_self.mpr (fun x hx => by
        simp [mem_rtC_source hx])]
  simp

/-- The merged-order relation of the spec (section 4.3): ticks ascend, and at
equal tick the tie-break rank ascends (reconciled units first, then
program-sourced, then performance-sourced events). -/
def mergedRel (a b : MergedEvent) : Prop :=
  a.tick ≤ b.tick ∧ (a.tick = b.tick → srcOrd a.source ≤ srcOrd b.source)

theorem mergedRel_of {t : ℕ} {a b : MergedEvent} (hta : a.tick = t)
    (htb : b.tick = t) (hs : srcOrd a.source ≤ srcOrd b.source) :
    mergedRel a b :=
  ⟨by rw [hta, htb], fun _ => hs⟩

theorem reconcileTick_pairwise {t : ℕ} {ps : List DropEvent}
    {qs : List PerfEvent} {B : List MergedEvent}
    (h : reconcileTick t ps qs = .ok B) : B.Pairwise mergedRel := by
  have htick := reconcileTick_mem_tick h
  obtain ⟨-, -, -, -, hB⟩ := reconcileTick_ok h
  subst hB
  set pdrops := qs.filterMap PerfEvent.dropPart with hpd
  have hta : ∀ x ∈ rtA t ps pdrops, x.tick = t := fun x hx =>
    htick x (by simp [hx])
  have htb : ∀ x ∈ rtB t ps pdrops, x.tick = t := fun x hx =>
    htick x (by simp [hx])
  have htc : ∀ x ∈ rtC t ps qs, x.tick = t := fun x hx =>
    htick x (by simp [hx])
  rw [List.pairwise_append]
  refine ⟨?_, ?_, ?_⟩
  · rw [List.pairwise_append]
    refine ⟨?_, ?_, ?_⟩
    · exact List.pairwise_of_forall_mem_list (fun a ha b hb =>
        mergedRel_of (hta a ha) (hta b hb)
          (by rw [mem_rtA_source ha, mem_rtA_source hb]))
    · exact List.pairwise_of_forall_mem_list (fun a ha b hb =>
        mergedRel_of (htb a ha) (htb b hb)
          (by rw [mem_rtB_source ha, mem_rtB_source hb]))
    · intro a ha b hb
      exact mergedRel_of (hta a ha) (htb b hb)
        (by rw [mem_rtA_source ha, mem_rtB_source hb]; exact Nat.le_of_lt (by norm_num [srcOrd]))
  · exact List.pairwise_of_forall_mem_list (fun a ha b hb =>
      mergedRel_of (htc a ha) (htc b hb)
        (by rw [mem_rtC_source ha, mem_rtC_source hb]))
  · intro a ha b hb
    rcases List.mem_append.mp ha with ha | ha
    · exact mergedRel_of (hta a ha) (htc b hb)
        (by rw [mem_rtA_source ha, mem_rtC_source hb]; norm_num [srcOrd])
    · exact mergedRel_of (htb a ha) (htc b hb)
        (by rw [mem_rtB_source ha, mem_rtC_source hb]; norm_num [srcOrd])

theorem reconcileTick_nil (t : ℕ) :
    reconcileTick t [] [] = .ok [] := rfl

/-! ## Lemmas about the stream merger -/

theorem mergeReconcile_ok_ascending {prog : List (ℕ × DropEvent)}
    {perf : List (ℕ × PerfEvent)} {ms : List MergedEvent}
    (h : mergeReconcile prog perf = .ok ms) :
    ascendingBy prog = true ∧ ascendingBy perf = true := by
  rw [mergeReconcile] at h
  split at h
  · exact bool_and_elim ‹_›
  · cases h

theorem mergeReconcile_ok_blocks {prog : List (ℕ × DropEvent)}
    {perf : List (ℕ × PerfEvent)} {ms : List MergedEvent}
    (h : mergeReconcile prog perf = .ok ms) :
    ∃ blocks,
      exceptMapM (fun t => reconcileTick t (selD prog t) (selP perf t))
        (tickUnion prog perf) = .ok blocks ∧ ms = joinAll blocks := by
  rw [mergeReconcile] at h
  split at h
  · cases hE : exceptMapM (fun t => reconcileTick t (selD prog t) (selP perf t))
        (tickUnion prog perf) with
    | error e => rw [hE] at h; simp at h
    | ok blocks =>
      rw [hE] at h
      simp at h
      exact ⟨blocks, rfl, h.symm⟩
  · cases h

theorem mergeReconcile_error_kind {prog : List (ℕ × DropEvent)}
    {perf : List (ℕ × PerfEvent)} {e : VError}
    (h : mergeReconcile prog perf = .error e) :
    e = .UnsortedEventStream ∨ e = .ConflictingReconciliation := by
  rw [mergeReconcile] at h
  split at h
  · cases hE : exceptMapM (fun t => reconcileTick t (selD prog t) (selP perf t))
        (tickUnion prog perf) with
    | error e' =>
      rw [hE] at h
      simp at h
      obtain ⟨t, -, ht⟩ := exceptMapM_error hE
      exact Or.inr (h ▸ reconcileTick_error ht)
    | ok blocks => rw [hE] at h; simp at h
  · cases h
    exact Or.inl rfl

theorem mergeReconcile_error_of_ascending {prog : List (ℕ × DropEvent)}
    {perf : List (ℕ × PerfEvent)} {e : VError}
    (ha : ascendingBy prog = true) (hb : ascendingBy perf = true)
    (h : mergeReconcile prog perf = .error e) :
    e = .ConflictingReconciliation := by
  rcases mergeReconcile_error_kind h with rfl | rfl
  · rw [mergeReconcile, ha, hb] at h
    cases hE : exceptMapM (fun t => reconcileTick t (selD prog t) (selP perf t))
        (tickUnion prog perf) with
    | error e' =>
      simp only [Bool.and_self, if_true, hE, error_map] at h
      obtain ⟨t, -, ht⟩ := exceptMapM_error hE
      have := reconcileTick_error ht
      cases h
      cases this
    | ok blocks =>
      simp only [Bool.and_self, if_true, hE, ok_map] at h
      exact Except.noConfusion h
  · rfl

/-- The interesting half of the tick-group decomposition: if the whole
pipeline succeeded then, for every tick, reconciling that tick's groups
succeeds and yields exactly the merged events carrying that tick. -/
theorem blocks_filter_eq {f : ℕ → Except VError (List MergedEvent)}
    (hf : ∀ u B, f u = .ok B → ∀ x ∈ B, x.tick = u) :
    ∀ {ticks : List ℕ} {blocks : List (List MergedEvent)},
      exceptMapM f ticks = .ok blocks → ticks.Nodup →
      ∀ t ∈ ticks, f t = .ok ((joinAll blocks).filter (fun m => m.tick == t)) := by
  intro ticks
  induction ticks with
  | nil => intro blocks _ _ t ht; cases ht
  | cons u ticks ih =>
    intro blocks h hnd t ht
    rw [exceptMapM_cons] at h
    cases hfu : f u with
    | error e => rw [hfu] at h; simp at h
    | ok B₀ =>
      rw [hfu] at h
      cases hml : exceptMapM f ticks with
      | error e => rw [hml] at h; simp at h
      | ok blocks' =>
        rw [hml] at h
        simp at h
        subst h
        rw [List.nodup_cons] at hnd
        have hrest_tick : ∀ x ∈ joinAll blocks', x.tick ∈ ticks := by
          intro x hx
          obtain ⟨B, hB, hxB⟩ := mem_joinAll.mp hx
          obtain ⟨u', hu', hfu'⟩ := forall₂_mem_right (exceptMapM_ok hml) hB
          exact (hf u' B hfu' x hxB) ▸ hu'
        rcases List.mem_cons.mp ht with rfl | ht
        · rw [joinAll_cons, List.filter_append]
          rw [List.filter_eq_self.mpr (fun x hx => by
              simp [hf t B₀ hfu x hx])]
          rw [List.filter_eq_nil_iff.mpr (fun x hx => by
              simp only [beq_iff_eq]
              intro hxt
              exact hnd.1 (hxt ▸ hrest_tick x hx))]
          rw [List.append_nil]
          exact hfu
        · rw [joinAll_cons, List.filter_append]
          rw [List.filter_eq_nil_iff.mpr (fun x hx => by
              simp only [beq_iff_eq]
              intro hxt
              exact hnd.1 ((hf u B₀ hfu x hx) ▸ hxt ▸ ht))]
          rw [List.nil_append]
          exact ih hml hnd.2 t ht

theorem mergeReconcile_filter_tick {prog : List (ℕ × DropEvent)}
    {perf : List (ℕ × PerfEvent)} {ms : List MergedEvent}
    (h : mergeReconcile prog perf = .ok ms) (t : ℕ) :
    reconcileTick t (selD prog t) (selP perf t) =
      .ok (ms.filter (fun m => m.tick == t)) := by
  obtain ⟨blocks, hE, rfl⟩ := mergeReconcile_ok_blocks h
  have hnd : (tickUnion prog perf).Nodup :=
    (tickUnion_pairwise prog perf).imp ne_of_lt
  by_cases ht : t ∈ tickUnion prog perf
  · exact blocks_filter_eq (fun u B hB => reconcileTick_mem_tick hB) hE hnd t ht
  · have hD : selD prog t = [] := by
      rw [selD, List.filter_eq_nil_iff.mpr, List.map_nil]
      intro p hp
      simp only [beq_iff_eq]
      intro hpt
      exact ht (mem_tickUnion.mpr (Or.inl (hpt ▸ List.mem_map_of_mem (·.1) hp)))
    have hP : selP perf t = [] := by
      rw [selP, List.filter_eq_nil_iff.mpr, List.map_nil]
      intro q hq
      simp only [beq_iff_eq]
      intro hqt
      exact ht (mem_tickUnion.mpr (Or.inr (hqt ▸ List.mem_map_of_mem (·.1) hq)))
    rw [hD, hP, reconcileTick_nil]
    have : (joinAll blocks).filter (fun m => m.tick == t) = [] := by
      rw [List.filter_eq_nil_iff.mpr]
      intro x hx
      simp only [beq_iff_eq]
      intro hxt
      obtain ⟨B, hB, hxB⟩ := mem_joinAll.mp hx
      obtain ⟨u, hu, hfu⟩ := forall₂_mem_right (exceptMapM_ok hE) hB
      refine ht ?_
      rw [show t = u from hxt.symm.trans (reconcileTick_mem_tick hfu x hxB)]
      exact hu
    rw [this]

/-! ## Partition of an ascending stream into its tick groups -/

theorem dropWhile_tick_gt {t : ℕ} :
    ∀ {l : List (ℕ × α)}, ascendingBy l = true →
      (∀ p ∈ l, p.1 = t ∨ t < p.1) →
      ∀ p ∈ l.dropWhile (fun p => p.1 == t), t < p.1 := by
  intro l
  induction l with
  | nil => intro _ _ p hp; cases hp
  | cons a l ih =>
    intro hasc hmin p hp
    rw [List.dropWhile_cons] at hp
    split at hp
    · exact ih (ascendingBy_tail hasc) (fun q hq => hmin q (by simp [hq])) p hp
    · rcases List.mem_cons.mp hp with rfl | hp
      · rcases hmin p (by simp) with h | h
        · exact absurd (by simp [h]) ‹¬(p.1 == t) = true›
        · exact h
      · have hat : t < a.1 := by
          rcases hmin a (by simp) with h | h
          · exact absurd (by simp [h]) ‹¬(a.1 == t) = true›
          · exact h
        exact lt_of_lt_of_le hat (ascendingBy_head_le hasc p hp)

theorem joinAll_filter_partition :
    ∀ {ts : List ℕ} {l : List (ℕ × α)}, ascendingBy l = true →
      ts.Pairwise (· < ·) → (∀ p ∈ l, p.1 ∈ ts) →
      joinAll (ts.map (fun t => l.filter (fun p => p.1 == t))) = l := by
  intro ts
  induction ts with
  | nil =>
    intro l _ _ hcov
    cases l with
    | nil => rfl
    | cons p l => exact absurd (hcov p (by simp)) (by simp)
  | cons t ts ih =>
    intro l hasc hsort hcov
    rw [List.map_cons, joinAll_cons]
    rw [List.pairwise_cons] at hsort
    have hmin : ∀ p ∈ l, p.1 = t ∨ t < p.1 := by
      intro p hp
      rcases List.mem_cons.mp (hcov p hp) with h | h
      · exact Or.inl h
      · exact Or.inr (hsort.1 _ h)
    have hgt : ∀ p ∈ l.dropWhile (fun p => p.1 == t), t < p.1 :=
      dropWhile_tick_gt hasc hmin
    have htw : ∀ p ∈ l.takeWhile (fun p => p.1 == t), p.1 = t := by
      intro p hp
      simpa using List.mem_takeWhile_imp hp
    have hsplit := List.takeWhile_append_dropWhile (fun p : ℕ × α => p.1 == t) l
    have hft : l.filter (fun p => p.1 == t) = l.takeWhile (fun p => p.1 == t) := by
      conv_lhs => rw [← hsplit]
      rw [List.filter_append]
      rw [List.filter_eq_self.mpr (fun p hp => by simp [htw p hp])]
      rw [List.filter_eq_nil_iff.mpr (fun p hp => by
        simp only [beq_iff_eq]
        have := hgt p hp
        omega)]
      rw [List.append_nil]
    have hcong : ∀ t' ∈ ts, l.filter (fun p => p.1 == t') =
        (l.dropWhile (fun p => p.1 == t)).filter (fun p => p.1 == t') := by
      intro t' ht'
      conv_lhs => rw [← hsplit]
      rw [List.filter_append]
      rw [List.filter_eq_nil_iff.mpr (fun p hp => by
        simp only [beq_iff_eq]
        have h1 := htw p hp
        have h2 := hsort.1 t' ht'
        omega)]
      rw [List.nil_append]
    have hrest : joinAll (ts.map (fun t' =>
        (l.dropWhile (fun p => p.1 == t)).filter (fun p => p.1 == t'))) =
        l.dropWhile (fun p => p.1 == t) := by
      refine ih (ascendingBy_dropWhile hasc) hsort.2 ?_
      intro p hp
      have hmem : p ∈ l := (List.dropWhile_sublist _).subset hp
      rcases List.mem_cons.mp (hcov p hmem) with h | h
      · have := hgt p hp
        omega
      · exact h
    rw [hft, List.map_congr_left hcong, hrest, hsplit]

/-! ## Lemmas about the reducer and the replay engine -/

/-- The canonical event a performance event projects to once merged. -/
def perfEventToR : PerfEvent → REvent
  | .drop e => .drop e.drop
  | .state se => .state se

/-- Whether a canonical event is a tempo event with a non-positive bpm
(validation case of spec section 4.2). -/
def tempoViolation : REvent → Prop
  | .state (.machineTempo e) => e.bpm ≤ 0
  | _ => False

/-- Whether a canonical event is a vibrato-speed event with a speed outside
the interval from 0 to 1 (validation case of spec section 4.2). -/
def speedViolation : REvent → Prop
  | .state (.vibratoSpeed e) => e.vibratoSpeed < 0 ∨ 1 < e.vibratoSpeed
  | _ => False

theorem applyEvent_drop_eq (s : State) (d : DropEvent) :
    applyEvent s (.drop d) = .ok s := rfl

theorem applyEvent_notes {s : State} {ev : REvent} {s' : State}
    (h : applyEvent s ev = .ok s') :
    s'.vibraphone.notes = s.vibraphone.notes := by
  cases ev with
  | drop d => cases h; rfl
  | state se =>
    cases se with
    | machineTempo e =>
      rw [applyEvent] at h
      split at h
      · cases h
      · cases h; rfl
    | vibratoSpeed e =>
      rw [applyEvent] at h
      split at h
      · cases h
      · cases h; rfl
    | machineMute e => cases h; rfl
    | machineFlywheel e => cases h; rfl
    | vibratoEnabled e => cases h; rfl
    | bassCapo e => cases h; rfl
    | hihatMachineSetting e => cases h; rfl
    | hihatClosed e => cases h; rfl

/-- The emission a merged event contributes to the replay side channel. -/
def dropProj (m : MergedEvent) : Option (ℕ × DropEvent) :=
  match m.ev with
  | .drop d => some (m.tick, d)
  | .state _ => none

theorem replayStep_eq (acc : State × List (ℕ × DropEvent)) (m : MergedEvent) :
    replayStep acc m = (applyEvent acc.1 m.ev).bind (fun s =>
      .ok (s, acc.2 ++ (dropProj m).toList)) := by
  cases m with
  | mk tick source ev =>
    cases ev with
    | drop d => rfl
    | state se =>
      show Except.bind (applyEvent acc.1 (REvent.state se))
          (fun s => Except.ok (s, acc.2)) =
        Except.bind (applyEvent acc.1 (REvent.state se)) (fun s =>
          Except.ok (s, acc.2 ++
            (dropProj ⟨tick, source, REvent.state se⟩).toList))
      congr 1
      funext s
      simp [dropProj]

theorem exceptFoldl_replay_em :
    ∀ {l : List MergedEvent} {s₀ : State} {ds₀ : List (ℕ × DropEvent)}
      {st : State} {em : List (ℕ × DropEvent)},
      exceptFoldl replayStep (s₀, ds₀) l = .ok (st, em) →
      em = ds₀ ++ l.filterMap dropProj := by
  intro l
  induction l with
  | nil =>
    intro s₀ ds₀ st em h
    rw [exceptFoldl_nil] at h
    cases h
    simp
  | cons m l ih =>
    intro s₀ ds₀ st em h
    rw [exceptFoldl_cons, replayStep_eq] at h
    cases happ : applyEvent s₀ m.ev with
    | error e => rw [happ] at h; simp at h
    | ok s₁ =>
      rw [happ] at h
      simp only [ok_bind] at h
      have := ih h
      rw [this, List.append_assoc]
      congr 1
      cases hdp : dropProj m with
      | none => simp [List.filterMap_cons_none hdp]
      | some b => rw [List.filterMap_cons_some hdp]; rfl

theorem replayTo_eq (prog : Program) (pf : PerformanceInput) (target : ℕ) :
    replayTo prog pf target = (mergeReconcile prog.dropEvents pf.events).bind
      (fun ms => exceptFoldl replayStep (pf.initialState, [])
        (ms.filter (fun m => decide (m.tick ≤ target)))) := rfl

/-- Looking a channel up in the mute object of a state. -/
def lookupMute (s : State) (c : Channel) : Option Bool :=
  s.machine.mute.lookup c

/-! ## Concrete scenario values (spec section 8) -/

/-- The initial state of the section 8 scenario: bpm 120, nothing muted. -/
def wInit : State :=
  { machine := { mute := [], bpm := 120, flywheelConnected := true }
  , vibraphone :=
      { vibratoEnabled := false
        vibratoSpeed := 0
        notes := fun _ => "C4" }
  , bass := { capos := [], tuning := [] }
  , hihatMachine := { setting := "" }
  , hihat := { closed := false } }

/-- A bassdrum drop. -/
def wBassdrumDrop : DropEvent := .drum { drum := .bassdrum }

/-- The section 8 scenario program: one bassdrum drop at tick 0. -/
def wProg : Program :=
  { metadata :=
      { title := "t"
        author := "a"
        version := "v"
        procrastination := none }
  , state := wInit
  , dropEvents := [(0, wBassdrumDrop)] }

/-- The section 8 scenario performance: a bassdrum mute at tick 0. -/
def wPerf : PerformanceInput :=
  { initialState := wInit
  , events := [(0, .state (.machineMute ⟨.bassdrum, true⟩))] }

/-- The merged sequence of the section 8 scenario. -/
def wMerged : List MergedEvent :=
  [⟨0, .program, .drop wBassdrumDrop⟩,
   ⟨0, .performance, .state (.machineMute ⟨.bassdrum, true⟩)⟩]

/-- The state of the section 8 scenario at tick 0. -/
def wState : State :=
  { wInit with machine := { wInit.machine with
      mute := [(Channel.bassdrum, true)] } }

/-- An empty program (no drops), for degenerate scenarios. -/
def wEmptyProg : Program :=
  { metadata :=
      { title := "t"
        author := "a"
        version := "v"
        procrastination := none }
  , state := wInit
  , dropEvents := [] }

/-- An empty performance input, for degenerate scenarios. -/
def wEmptyPerf : PerformanceInput := { initialState := wInit, events := [] }

/-! ## Claim theorems -/

/-- C8: the claim says a Performance's event sequence can contain
`machine_tempo` and `machine_flywheelConnected` events and that the reducer
has a rule for each.  The source contradicts the first half: its
`MachineEvent` union (schema.ts line 250) is `ChannelMuteEvent` alone, so no
member of the source's `Event` union -- and hence no entry of
`Performance.events` -- carries either kind, even though the source defines
and documents both event interfaces (lines 268-286) and they are referenced
nowhere else.  The first conjunct evaluates the source embedding at every
possible event, showing the two kinds cannot occur; the remaining conjuncts
show the spec-modelled reducer does have the two rules the claim describes
(set bpm, validating positivity; set flywheelConnected). -/
theorem C8_machine_events_missing_from_union :
    (∀ e : Event, (Event.kind e == "machine_tempo") = false ∧
      (Event.kind e == "machine_flywheelConnected") = false) ∧
    (∀ (s : State) (b : ℚ), applyEvent s (.state (.machineTempo ⟨b⟩)) =
      if b ≤ 0 then .error .OutOfRangeValue
      else .ok { s with machine := { s.machine with bpm := b } }) ∧
    (∀ (s : State) (c : Bool), applyEvent s (.state (.machineFlywheel ⟨c⟩)) =
      .ok { s with machine := { s.machine with flywheelConnected := c } }) := by
  refine ⟨?_, ?_, ?_⟩
  · intro e
    cases e with
    | perfDrop e =>
      rcases e with ⟨d, bt⟩
      cases d <;> exact ⟨rfl, rfl⟩
    | machine e => exact ⟨rfl, rfl⟩
    | vibraphone e => cases e <;> exact ⟨rfl, rfl⟩
    | hihatMachine e => exact ⟨rfl, rfl⟩
    | hihat e => exact ⟨rfl, rfl⟩
    | bass e => exact ⟨rfl, rfl⟩
  · intro s b
    rfl
  · intro s c
    rfl

/-- The 11 vibraphone channels, in order. -/
def vibraphoneChannelList : List VibraphoneChannel :=
  [⟨1, by omega⟩, ⟨2, by omega⟩, ⟨3, by omega⟩, ⟨4, by omega⟩, ⟨5, by omega⟩,
   ⟨6, by omega⟩, ⟨7, by omega⟩, ⟨8, by omega⟩, ⟨9, by omega⟩, ⟨10, by omega⟩,
   ⟨11, by omega⟩]

/-- The notes object of a vibraphone state, viewed as the key-value entries
a TypeScript object of type `{ [VC in VibraphoneChannel]: Note }` has: one
entry for every one of the 11 channels (the mapped type is required, not
optional). -/
def notesEntries (vs : VibraphoneState) : List (ℕ × Note) :=
  vibraphoneChannelList.map (fun c => (c.val, vs.notes c))

/-- C10: for every vibraphone state and every vibraphone drop event, the
note lookup `state.vibraphone.notes[event.channel]` (the resolution recipe
in the source's doc comment, schema.ts lines 148-153) is defined: the
event's channel lies in 1..11 and the notes object has an entry for it,
holding exactly the note assigned to the channel, so resolving a vibraphone
drop's pitch never meets an absent entry. -/
theorem C10_vibraphone_note_lookup_total (vs : VibraphoneState)
    (e : VibraphoneDropEvent) :
    (notesEntries vs).lookup e.channel.val = some (vs.notes e.channel) ∧
    1 ≤ e.channel.val ∧ e.channel.val ≤ 11 := by
  rcases e with ⟨⟨v, hv1, hv11⟩⟩
  interval_cases v <;> exact ⟨rfl, by norm_num, by norm_num⟩

/-- C4: `stateAt` is deterministic -- two calls with the same arguments give
the same result, and the answer inside any sequence of queries is fixed by
the query's own arguments alone, independent of which and how many queries
come before or after it.  In this embedding the replay engine is a pure
function of (program, performance, tick), so there is no wall-clock or
call-order dependence to begin with. -/
theorem C4_stateAt_deterministic (prog : Program) (pf : PerformanceInput)
    (t : ℕ) (qs : List ℕ) (i : ℕ) (h : qs[i]? = some t) :
    stateAt prog pf t = stateAt prog pf t ∧
    (runQueries prog pf qs)[i]? = some (stateAt prog pf t) := by
  refine ⟨rfl, ?_⟩
  rw [runQueries, List.getElem?_map, h]
  rfl

/-- Witness for C4 at a concrete query list. -/
theorem C4_stateAt_deterministic_witness :
    ([0, 5] : List ℕ)[1]? = some 5 ∧
    (stateAt wEmptyProg wEmptyPerf 5 = stateAt wEmptyProg wEmptyPerf 5 ∧
      (runQueries wEmptyProg wEmptyPerf [0, 5])[1]? =
        some (stateAt wEmptyProg wEmptyPerf 5)) :=
  ⟨rfl, C4_stateAt_deterministic wEmptyProg wEmptyPerf 5 [0, 5] 1 rfl⟩

/-- C6: the reducer's `apply` fails exactly on a `machine_tempo` event with
non-positive bpm or a `vibraphone_vibrato_speed` event with speed outside
[0, 1], and the error is always `OutOfRangeValue`; every other event is
total.  In the embedding failure returns no state at all, so the prior
state (in particular its bpm) is untouched -- atomicity per spec
section 7. -/
theorem C6_reducer_failure_characterization (s : State) (ev : REvent) :
    (applyEvent s ev = .error .OutOfRangeValue ↔
      tempoViolation ev ∨ speedViolation ev) ∧
    (∀ err, applyEvent s ev = .error err → err = .OutOfRangeValue) := by
  constructor
  · constructor
    · intro h
      cases ev with
      | drop d => simp [applyEvent] at h
      | state se =>
        cases se with
        | machineTempo e =>
          rw [applyEvent] at h
          split at h
          · exact Or.inl ‹e.bpm ≤ 0›
          · simp at h
        | vibratoSpeed e =>
          rw [applyEvent] at h
          split at h
          · exact Or.inr ‹_›
          · simp at h
        | machineMute e => simp [applyEvent] at h
        | machineFlywheel e => simp [applyEvent] at h
        | vibratoEnabled e => simp [applyEvent] at h
        | bassCapo e => simp [applyEvent] at h
        | hihatMachineSetting e => simp [applyEvent] at h
        | hihatClosed e => simp [applyEvent] at h
    · intro h
      rcases h with hT | hS
      · cases ev with
        | drop d => exact hT.elim
        | state se =>
          cases se with
          | machineTempo e => rw [applyEvent, if_pos (show e.bpm ≤ 0 from hT)]
          | machineMute e => exact hT.elim
          | machineFlywheel e => exact hT.elim
          | vibratoEnabled e => exact hT.elim
          | vibratoSpeed e => exact hT.elim
          | bassCapo e => exact hT.elim
          | hihatMachineSetting e => exact hT.elim
          | hihatClosed e => exact hT.elim
      · cases ev with
        | drop d => exact hS.elim
        | state se =>
          cases se with
          | vibratoSpeed e => rw [applyEvent, if_pos (show e.vibratoSpeed < 0 ∨ 1 < e.vibratoSpeed from hS)]
          | machineMute e => exact hS.elim
          | machineTempo e => exact hS.elim
          | machineFlywheel e => exact hS.elim
          | vibratoEnabled e => exact hS.elim
          | bassCapo e => exact hS.elim
          | hihatMachineSetting e => exact hS.elim
          | hihatClosed e => exact hS.elim
  · intro err h
    cases ev with
    | drop d => simp [applyEvent] at h
    | state se =>
      cases se with
      | machineTempo e =>
        rw [applyEvent] at h
        split at h
        · cases h; rfl
        · simp at h
      | vibratoSpeed e =>
        rw [applyEvent] at h
        split at h
        · cases h; rfl
        · simp at h
      | machineMute e => simp [applyEvent] at h
      | machineFlywheel e => simp [applyEvent] at h
      | vibratoEnabled e => simp [applyEvent] at h
      | bassCapo e => simp [applyEvent] at h
      | hihatMachineSetting e => simp [applyEvent] at h
      | hihatClosed e => simp [applyEvent] at h

/-- Witness for C6 at the spec's own example `machine_tempo {bpm: -5}`. -/
theorem C6_reducer_failure_witness :
    tempoViolation (.state (.machineTempo ⟨-5⟩)) ∧
    applyEvent wInit (.state (.machineTempo ⟨-5⟩)) =
      .error .OutOfRangeValue :=
  ⟨by norm_num [tempoViolation],
    (C6_reducer_failure_characterization wInit
      (.state (.machineTempo ⟨-5⟩))).1.mpr
      (Or.inl (by norm_num [tempoViolation]))⟩

/-- C9: the vibraphone note assignment is invariant over a performance:
whatever events replay applies, the state returned by `stateAt` carries
exactly the initial state's notes mapping -- no engine event kind touches
`vibraphone.notes` (it is authorable only in a Program, schema.ts
lines 305-311). -/
theorem C9_notes_invariant (prog : Program) (pf : PerformanceInput) (t : ℕ)
    (st : State) (h : stateAt prog pf t = .ok st) :
    st.vibraphone.notes = pf.initialState.vibraphone.notes := by
  rw [stateAt] at h
  cases hr : replayTo prog pf t with
  | error e => rw [hr] at h; simp at h
  | ok acc =>
    rw [hr] at h
    simp at h
    rw [replayTo_eq] at hr
    cases hm : mergeReconcile prog.dropEvents pf.events with
    | error e => rw [hm] at hr; simp at hr
    | ok ms =>
      rw [hm] at hr
      simp only [ok_bind] at hr
      have hinv := exceptFoldl_inv
        (fun acc : State × List (ℕ × DropEvent) =>
          acc.1.vibraphone.notes = pf.initialState.vibraphone.notes)
        ?_ hr rfl
      · rw [← h]
        exact hinv
      · intro b a b' hb hP
        rw [replayStep_eq] at hb
        cases happ : applyEvent b.1 a.ev with
        | error e => rw [happ] at hb; simp at hb
        | ok s' =>
          rw [happ] at hb
          simp only [ok_bind] at hb
          cases hb
          rw [show ((s', b.2 ++ (dropProj a).toList)).1 = s' from rfl,
            applyEvent_notes happ]
          exact hP

/-- Witness for C9 at the section 8 scenario. -/
theorem C9_notes_invariant_witness :
    stateAt wProg wPerf 0 = .ok wState ∧
    wState.vibraphone.notes = wPerf.initialState.vibraphone.notes :=
  ⟨rfl, C9_notes_invariant wProg wPerf 0 wState rfl⟩

/-- C7: the reducer leaves the state unchanged on every drop event (bass,
drum or vibraphone), yet the replay engine emits every fired drop of the
merged sequence up to the target tick as an observable side-channel output;
the emission list is exactly the fired drops of the merged, reconciled
sequence and is computed independently of any state event (mutes included)
replayed alongside. -/
theorem C7_drops_pure_and_emitted (s : State) (d : DropEvent)
    (prog : Program) (pf : PerformanceInput) (target : ℕ)
    (ms : List MergedEvent) (st : State) (em : List (ℕ × DropEvent))
    (hm : mergeReconcile prog.dropEvents pf.events = .ok ms)
    (hr : replayTo prog pf target = .ok (st, em)) :
    applyEvent s (.drop d) = .ok s ∧
    em = (ms.filter (fun m => decide (m.tick ≤ target))).filterMap dropProj := by
  refine ⟨rfl, ?_⟩
  rw [replayTo_eq, hm] at hr
  simp only [ok_bind] at hr
  simpa using exceptFoldl_replay_em hr

/-- Witness for C7 at the section 8 scenario: the bassdrum drop at tick 0
still fires (it is emitted) while `stateAt 0` already shows the channel
muted by the same-tick mute event. -/
theorem C7_drops_pure_and_emitted_witness :
    mergeReconcile wProg.dropEvents wPerf.events = .ok wMerged ∧
    replayTo wProg wPerf 0 = .ok (wState, [(0, wBassdrumDrop)]) ∧
    lookupMute wState Channel.bassdrum = some true ∧
    (applyEvent wInit (.drop wBassdrumDrop) = .ok wInit ∧
      [(0, wBassdrumDrop)] =
        (wMerged.filter (fun m => decide (m.tick ≤ 0))).filterMap dropProj) :=
  ⟨rfl, rfl, rfl,
    C7_drops_pure_and_emitted wInit wBassdrumDrop wProg wPerf 0 wMerged
      wState [(0, wBassdrumDrop)] rfl rfl⟩

/-- Strict ascent by tick, as claim C5 words it. -/
def strictlyAscendingBy : List (ℕ × α) → Bool
  | [] => true
  | [_] => true
  | a :: b :: l => decide (a.1 < b.1) && strictlyAscendingBy (b :: l)

/-- A performance stream holding two state events at one tick -- legal per
the source ("Multiple simultaneous changes must be represented by multiple
events with the same tick", schema.ts lines 220-221), but not strictly
ascending. -/
def cSameTickPerf : List (ℕ × PerfEvent) :=
  [(0, .state (.machineMute ⟨.bassdrum, true⟩)),
   (0, .state (.hihatClosed ⟨true⟩))]

/-- C5 as stated is false: a performance stream that is *not strictly*
ascending by tick (it repeats tick 0, as the source's own contract for
compound changes requires) is accepted by the merger -- the pipeline
returns a merged sequence instead of failing with `UnsortedEventStream`. -/
theorem C5_counterexample :
    strictlyAscendingBy cSameTickPerf = false ∧
    mergeReconcile ([] : List (ℕ × DropEvent)) cSameTickPerf =
      .ok [⟨0, .performance, .state (.machineMute ⟨.bassdrum, true⟩)⟩,
           ⟨0, .performance, .state (.hihatClosed ⟨true⟩)⟩] :=
  ⟨rfl, rfl⟩

/-- C5 (amended): the merge pipeline fails with `UnsortedEventStream` if and
only if one of the input streams is not *ascending (non-decreasing)* by
tick; it never re-sorts an input (the output preserves each stream's
authoring order, see the stability part of C3), and on ascending inputs the
merger stage itself never raises `UnsortedEventStream` (any later failure is
the reconciler's `ConflictingReconciliation`). -/
theorem C5_unsorted_detection (prog : List (ℕ × DropEvent))
    (perf : List (ℕ × PerfEvent)) :
    mergeReconcile prog perf = .error .UnsortedEventStream ↔
      ¬(ascendingBy prog = true ∧ ascendingBy perf = true) := by
  constructor
  · intro h hasc
    have := mergeReconcile_error_of_ascending hasc.1 hasc.2 h
    cases this
  · intro h
    rw [mergeReconcile, if_neg (fun hc => h (bool_and_elim hc))]

/-- A program stream with a descending tick pair. -/
def cUnsortedProg : List (ℕ × DropEvent) :=
  [(5, wBassdrumDrop), (3, wBassdrumDrop)]

/-- Witness for the amended C5 at a concrete unsorted program. -/
theorem C5_unsorted_detection_witness :
    ¬(ascendingBy cUnsortedProg = true ∧
        ascendingBy ([] : List (ℕ × PerfEvent)) = true) ∧
    mergeReconcile cUnsortedProg [] = .error .UnsortedEventStream :=
  ⟨by decide, (C5_unsorted_detection cUnsortedProg []).mpr (by decide)⟩

/-- The (tick, channel) targets of the drop events of a performance
stream, in authoring order. -/
def perfDropTargets (perf : List (ℕ × PerfEvent)) : List (ℕ × Channel) :=
  perf.filterMap (fun q =>
    match q.2 with
    | .drop e => some (q.1, dropChannel e.drop)
    | .state _ => none)

theorem perfDropTargets_cons_drop (t' : ℕ) (e : PerformanceDropEvent)
    (perf : List (ℕ × PerfEvent)) :
    perfDropTargets ((t', .drop e) :: perf) =
      (t', dropChannel e.drop) :: perfDropTargets perf := rfl

theorem perfDropTargets_cons_state (t' : ℕ) (se : StateEvent)
    (perf : List (ℕ × PerfEvent)) :
    perfDropTargets ((t', .state se) :: perf) = perfDropTargets perf := rfl

theorem selP_cons_eq (t : ℕ) (qe : PerfEvent) (perf : List (ℕ × PerfEvent)) :
    selP ((t, qe) :: perf) t = qe :: selP perf t := by
  rw [selP, selP, List.filter_cons, if_pos (by simp), List.map_cons]

theorem selP_cons_ne {t t' : ℕ} (qe : PerfEvent)
    (perf : List (ℕ × PerfEvent)) (h : ¬ t' = t) :
    selP ((t', qe) :: perf) t = selP perf t := by
  rw [selP, selP, List.filter_cons, if_neg (by simp [h])]

/-- The drop channels of one tick group are the channel components of the
performance's (tick, channel) drop targets restricted to that tick. -/
theorem group_channels_eq (t : ℕ) :
    ∀ perf : List (ℕ × PerfEvent),
      ((selP perf t).filterMap PerfEvent.dropPart).map
        (fun e => dropChannel e.drop) =
      ((perfDropTargets perf).filter (fun p => p.1 == t)).map Prod.snd := by
  intro perf
  induction perf with
  | nil => rfl
  | cons q perf ih =>
    rcases q with ⟨t', qe⟩
    cases qe with
    | state se =>
      rw [perfDropTargets_cons_state]
      by_cases ht : t' = t
      · subst ht
        rw [selP_cons_eq, List.filterMap_cons_none
          (show PerfEvent.dropPart (.state se) = none from rfl)]
        exact ih
      · rw [selP_cons_ne _ _ ht]
        exact ih
    | drop e =>
      rw [perfDropTargets_cons_drop, List.filter_cons]
      by_cases ht : t' = t
      · subst ht
        rw [selP_cons_eq, List.filterMap_cons_some
          (show PerfEvent.dropPart (.drop e) = some e from rfl)]
        rw [if_pos (by simp), List.map_cons, List.map_cons, ih]
      · rw [selP_cons_ne _ _ ht, if_neg (by simp [ht])]
        exact ih

/-- C2: on streams the merger accepts (ascending by tick), a performance
whose event list contains two or more drop events targeting one
(tick, channel) pair makes reconciliation fail with
`ConflictingReconciliation` -- no single one of the conflicting events is
silently kept, since nothing is produced at all. -/
theorem C2_conflicting_reconciliation (prog : List (ℕ × DropEvent))
    (perf : List (ℕ × PerfEvent))
    (ha : ascendingBy prog = true) (hb : ascendingBy perf = true)
    (hdup : ¬ (perfDropTargets perf).Nodup) :
    mergeReconcile prog perf = .error .ConflictingReconciliation := by
  cases hres : mergeReconcile prog perf with
  | error e => rw [mergeReconcile_error_of_ascending ha hb hres]
  | ok ms =>
    exfalso
    rw [List.nodup_iff_sublist] at hdup
    push_neg at hdup
    obtain ⟨⟨t, c⟩, hsub⟩ := hdup
    have hL3 := mergeReconcile_filter_tick hres t
    obtain ⟨-, hnd2, -, -, -⟩ := reconcileTick_ok hL3
    rw [group_channels_eq t perf, List.nodup_iff_sublist] at hnd2
    refine hnd2 c ?_
    have hsub2 := (hsub.filter (fun p => p.1 == t)).map Prod.snd
    simpa using hsub2

theorem matchFor_channel {pdrops : List PerformanceDropEvent} {d : DropEvent}
    {e : PerformanceDropEvent} (h : matchFor pdrops d = some e) :
    dropChannel e.drop = dropChannel d := by
  have := List.find?_some h
  simpa using this

theorem matchFor_mem {pdrops : List PerformanceDropEvent} {d : DropEvent}
    {e : PerformanceDropEvent} (h : matchFor pdrops d = some e) :
    e ∈ pdrops :=
  List.mem_of_find?_eq_some h

theorem firedParams_channel {d : DropEvent} {e : PerformanceDropEvent}
    (h : dropChannel e.drop = dropChannel d) :
    dropChannel (firedParams d e) = dropChannel d := by
  cases hb : e.bakeType with
  | MODIFIED_AUTO => simp only [firedParams, hb]; exact h
  | AUTO => simp only [firedParams, hb]
  | MANUAL => simp only [firedParams, hb]

theorem rtA_cons (t : ℕ) (d₀ : DropEvent) (ps : List DropEvent)
    (pdrops : List PerformanceDropEvent) :
    rtA t (d₀ :: ps) pdrops =
      (match matchFor pdrops d₀ with
        | some e =>
          MergedEvent.mk t .reconciled (.drop (firedParams d₀ e)) ::
            rtA t ps pdrops
        | none => rtA t ps pdrops) := by
  rw [rtA, List.filterMap_cons]
  cases matchFor pdrops d₀ <;> rfl

theorem rtA_filter_nil {t : ℕ} {c : Channel} {ps : List DropEvent}
    {pdrops : List PerformanceDropEvent}
    (hc : c ∉ ps.map dropChannel) :
    (rtA t ps pdrops).filter (firedOn c) = [] := by
  rw [List.filter_eq_nil_iff]
  intro x hx
  obtain ⟨d, hd, e, he, rfl⟩ := mem_rtA.mp hx
  simp only [firedOn, beq_iff_eq]
  rw [firedParams_channel (matchFor_channel he)]
  intro heq
  exact hc (heq ▸ List.mem_map_of_mem dropChannel hd)

theorem rtA_filter_singleton {t : ℕ} {c : Channel}
    {pdrops : List PerformanceDropEvent} :
    ∀ {ps : List DropEvent}, (ps.map dropChannel).Nodup →
      ∀ {d : DropEvent}, d ∈ ps → dropChannel d = c →
      ∀ {e : PerformanceDropEvent}, matchFor pdrops d = some e →
      (rtA t ps pdrops).filter (firedOn c) =
        [⟨t, .reconciled, .drop (firedParams d e)⟩] := by
  intro ps
  induction ps with
  | nil => intro _ d hd; cases hd
  | cons d₀ ps ih =>
    intro hnd d hd hc e he
    rw [List.map_cons, List.nodup_cons] at hnd
    rw [rtA_cons]
    rcases List.mem_cons.mp hd with rfl | hd
    · rw [he]
      rw [List.filter_cons, if_pos (by
        simp only [firedOn, beq_iff_eq]
        rw [firedParams_channel (matchFor_channel he), hc])]
      rw [rtA_filter_nil (fun hmem => hnd.1 (hc ▸ hmem))]
    · have hd0c : dropChannel d₀ ≠ c := by
        intro h0
        exact hnd.1 (h0 ▸ hc ▸ List.mem_map_of_mem dropChannel hd)
      cases hm0 : matchFor pdrops d₀ with
      | none => exact ih hnd.2 hd hc he
      | some e₀ =>
        rw [List.filter_cons, if_neg (by
          simp only [firedOn, beq_iff_eq]
          rw [firedParams_channel (matchFor_channel hm0)]
          exact hd0c)]
        exact ih hnd.2 hd hc he

theorem rtB_filter_nil {t : ℕ} {c : Channel} {ps : List DropEvent}
    {pdrops : List PerformanceDropEvent}
    (hnd : (ps.map dropChannel).Nodup) {d : DropEvent} (hd : d ∈ ps)
    (hc : dropChannel d = c) {e : PerformanceDropEvent}
    (he : matchFor pdrops d = some e) :
    (rtB t ps pdrops).filter (firedOn c) = [] := by
  rw [List.filter_eq_nil_iff]
  intro x hx
  obtain ⟨d', hd', hm', rfl⟩ := mem_rtB.mp hx
  simp only [firedOn, beq_iff_eq]
  intro heq
  have : d' = d := eq_of_nodup_key dropChannel hnd hd' hd (heq.trans hc.symm)
  subst this
  rw [hm'] at he
  cases he

theorem rtC_filter_nil {t : ℕ} {c : Channel} {ps : List DropEvent}
    {qs : List PerfEvent} {d : DropEvent} (hd : d ∈ ps)
    (hc : dropChannel d = c) :
    (rtC t ps qs).filter (firedOn c) = [] := by
  rw [List.filter_eq_nil_iff]
  intro x hx
  rcases mem_rtC.mp hx with ⟨se, -, rfl⟩ | ⟨e', -, hnm, rfl⟩
  · simp [firedOn]
  · simp only [firedOn, beq_iff_eq]
    intro heq
    have : hasProgMatch ps e' = true :=
      List.any_eq_true.mpr ⟨d, hd, by simp [hc, heq]⟩
    rw [this] at hnm
    cases hnm

/-- On a successful tick reconciliation, a program drop on channel c with a
matching performance drop event yields exactly one fired drop on that
channel in the block, carrying the reconciled parameters. -/
theorem reconcileTick_filter_fired {t : ℕ} {ps : List DropEvent}
    {qs : List PerfEvent} {B : List MergedEvent} {c : Channel}
    {d : DropEvent} {e : PerformanceDropEvent}
    (h : reconcileTick t ps qs = .ok B)
    (hd : d ∈ ps) (hc : dropChannel d = c)
    (he : e ∈ qs.filterMap PerfEvent.dropPart)
    (hec : dropChannel e.drop = c) :
    B.filter (firedOn c) = [⟨t, .reconciled, .drop (firedParams d e)⟩] := by
  obtain ⟨hnd1, hnd2, -, -, rfl⟩ := reconcileTick_ok h
  have hmatch : matchFor (qs.filterMap PerfEvent.dropPart) d = some e := by
    rw [matchFor]
    rw [show (fun e' : PerformanceDropEvent =>
        dropChannel e'.drop == dropChannel d) =
      (fun e' : PerformanceDropEvent => dropChannel e'.drop == c) from
        by rw [hc]]
    exact find?_key_unique (fun e' => dropChannel e'.drop) hnd2 he hec
  rw [List.filter_append, List.filter_append]
  rw [rtA_filter_singleton hnd1 hd hc hmatch]
  rw [rtB_filter_nil hnd1 hd hc hmatch]
  rw [rtC_filter_nil hd hc]
  rfl

/-- C1: whenever the pipeline succeeds, a program drop at tick t on channel
c that has a matching performance drop event at the same tick and channel
with bake type `MODIFIED_AUTO` produces exactly one fired drop at (t, c) in
the merged sequence, and its placement parameters are the performance
event's (the filtered list is the one-element list holding the performance
drop's parameters -- not two drops, and not the program's parameters).
The program's own authored event is untouched: the pipeline is a pure
function of the immutable input lists and only builds a fresh sequence. -/
theorem C1_modified_auto_single_firing {prog : List (ℕ × DropEvent)}
    {perf : List (ℕ × PerfEvent)} {ms : List MergedEvent}
    (hm : mergeReconcile prog perf = .ok ms)
    {t : ℕ} {d : DropEvent} {c : Channel} (hd : (t, d) ∈ prog)
    (hc : dropChannel d = c) {e : PerformanceDropEvent}
    (he : (t, PerfEvent.drop e) ∈ perf)
    (hb : e.bakeType = .MODIFIED_AUTO) (hec : dropChannel e.drop = c) :
    ms.filter (fun m => m.tick == t && firedOn c m) =
      [⟨t, .reconciled, .drop e.drop⟩] := by
  have hL3 := mergeReconcile_filter_tick hm t
  have hdsel : d ∈ selD prog t := by
    rw [selD]
    have hmf : (t, d) ∈ prog.filter (fun p => p.1 == t) :=
      List.mem_filter.mpr ⟨hd, beq_self_eq_true t⟩
    exact List.mem_map_of_mem (·.2) hmf
  have hesel : e ∈ (selP perf t).filterMap PerfEvent.dropPart := by
    rw [selP]
    refine List.mem_filterMap.mpr ⟨.drop e, ?_, rfl⟩
    have hmf : (t, PerfEvent.drop e) ∈ perf.filter (fun q => q.1 == t) :=
      List.mem_filter.mpr ⟨he, beq_self_eq_true t⟩
    exact List.mem_map_of_mem (·.2) hmf
  have hsing := reconcileTick_filter_fired hL3 hdsel hc hesel hec
  rw [List.filter_filter] at hsing
  rw [show firedParams d e = e.drop from by simp only [firedParams, hb]]
    at hsing
  rw [← hsing]
  refine List.filter_congr ?_
  intro m hmem
  exact Bool.and_comm (m.tick == t) (firedOn c m)

/-- The program of the C1 witness: one bass drop, string 1 fret 2,
at tick 100. -/
def c1Prog : List (ℕ × DropEvent) := [(100, .bass ⟨⟨1, by omega⟩, 2⟩)]

/-- The performance of the C1 witness: a `MODIFIED_AUTO` drop at tick 100
on the bass channel overriding the fret to 5. -/
def c1Perf : List (ℕ × PerfEvent) :=
  [(100, .drop ⟨.bass ⟨⟨1, by omega⟩, 5⟩, .MODIFIED_AUTO⟩)]

/-- The merged result of the C1 witness: one reconciled firing with the
performance parameters. -/
def c1Merged : List MergedEvent :=
  [⟨100, .reconciled, .drop (.bass ⟨⟨1, by omega⟩, 5⟩)⟩]

/-- Witness for C1 at a concrete modified-auto override. -/
theorem C1_modified_auto_single_firing_witness :
    mergeReconcile c1Prog c1Perf = .ok c1Merged ∧
    (100, DropEvent.bass ⟨⟨1, by omega⟩, 2⟩) ∈ c1Prog ∧
    dropChannel (.bass ⟨⟨1, by omega⟩, 2⟩) = .bass ∧
    (100, PerfEvent.drop ⟨.bass ⟨⟨1, by omega⟩, 5⟩, .MODIFIED_AUTO⟩) ∈ c1Perf ∧
    c1Merged.filter (fun m => m.tick == 100 && firedOn .bass m) =
      [⟨100, .reconciled, .drop (.bass ⟨⟨1, by omega⟩, 5⟩)⟩] :=
  ⟨rfl, by decide, rfl, by decide,
    C1_modified_auto_single_firing
      (show mergeReconcile c1Prog c1Perf = .ok c1Merged from rfl)
      (show (100, DropEvent.bass ⟨⟨1, by omega⟩, 2⟩) ∈ c1Prog by decide)
      (show dropChannel (.bass ⟨⟨1, by omega⟩, 2⟩) = .bass from rfl)
      (show (100, PerfEvent.drop ⟨.bass ⟨⟨1, by omega⟩, 5⟩, .MODIFIED_AUTO⟩)
          ∈ c1Perf by decide)
      (show EventBakeType.MODIFIED_AUTO = .MODIFIED_AUTO from rfl)
      (show dropChannel (DropEvent.bass ⟨⟨1, by omega⟩, 5⟩) = .bass from rfl)⟩

theorem pairwise_of_forall₂ {f : α → β → Prop} {S : α → α → Prop}
    {R : β → β → Prop} :
    ∀ {l : List α} {L : List β}, List.Forall₂ f l L → l.Pairwise S →
      (∀ a b a' b', f a b → f a' b' → S a a' → R b b') → L.Pairwise R := by
  intro l L h
  induction h with
  | nil => intro _ _; exact .nil
  | cons hab htail ih =>
    intro hp himp
    rw [List.pairwise_cons] at hp ⊢
    refine ⟨?_, ih hp.2 himp⟩
    intro b' hb'
    obtain ⟨a', ha', hfa'⟩ := forall₂_mem_right htail hb'
    exact himp _ _ _ _ hab hfa' (hp.1 a' ha')

/-- C3: the merged output is totally ordered.  `Pairwise mergedRel` says
ticks never decrease along the output -- so for distinct ticks t1 < t2 the
t1 event precedes the t2 event regardless of source stream -- and that at
equal tick the tie-break rank never decreases: reconciled units first, then
unrelated program-sourced events, then unrelated performance-sourced events
(Program is the base layer).  The two `Sublist` conjuncts are stability:
the program-sourced events of the output, in output order, are a
subsequence of the program stream in its authoring order, and likewise the
performance-sourced events of the perf stream. -/
theorem C3_merge_ordering {prog : List (ℕ × DropEvent)}
    {perf : List (ℕ × PerfEvent)} {ms : List MergedEvent}
    (hm : mergeReconcile prog perf = .ok ms) :
    ms.Pairwise mergedRel ∧
    ((ms.filter (fun m => m.source == Source.program)).map
        (fun m => (m.tick, m.ev))).Sublist
      (prog.map (fun p => (p.1, REvent.drop p.2))) ∧
    ((ms.filter (fun m => m.source == Source.performance)).map
        (fun m => (m.tick, m.ev))).Sublist
      (perf.map (fun q => (q.1, perfEventToR q.2))) := by
  obtain ⟨ha, hb⟩ := mergeReconcile_ok_ascending hm
  obtain ⟨blocks, hE, hms⟩ := mergeReconcile_ok_blocks hm
  subst hms
  have hfa := exceptMapM_ok hE
  have hsort := tickUnion_pairwise prog perf
  refine ⟨?_, ?_, ?_⟩
  · refine pairwise_joinAll ?_ ?_
    · intro B hB
      obtain ⟨u, -, hfu⟩ := forall₂_mem_right hfa hB
      exact reconcileTick_pairwise hfu
    · refine pairwise_of_forall₂ hfa hsort ?_
      intro t₁ B₁ t₂ B₂ h₁ h₂ hlt a ha' b hb'
      refine ⟨?_, ?_⟩
      · rw [reconcileTick_mem_tick h₁ a ha', reconcileTick_mem_tick h₂ b hb']
        exact le_of_lt hlt
      · intro heq
        rw [reconcileTick_mem_tick h₁ a ha', reconcileTick_mem_tick h₂ b hb']
          at heq
        exact absurd heq (Nat.ne_of_lt hlt)
  · have hcov : ∀ p ∈ prog, p.1 ∈ tickUnion prog perf := fun p hp =>
      mem_tickUnion.mpr (Or.inl (List.mem_map_of_mem (·.1) hp))
    have hpart := joinAll_filter_partition ha hsort hcov
    have hF : List.Forall₂ (fun l₁ l₂ => l₁.Sublist l₂)
        (blocks.map (fun B =>
          (B.filter (fun m => m.source == Source.program)).map
            (fun m => (m.tick, m.ev))))
        ((tickUnion prog perf).map (fun u =>
          (prog.filter (fun p => p.1 == u)).map
            (fun p => (p.1, REvent.drop p.2)))) := by
      refine forall₂_map hfa ?_
      intro u B hfu
      rw [reconcileTick_filter_program hfu]
      have hsub := filterMap_map_sublist
        (fun d =>
          match matchFor ((selP perf u).filterMap PerfEvent.dropPart) d with
          | some _ => none
          | none => some (MergedEvent.mk u .program (.drop d)))
        (fun m => (m.tick, m.ev))
        (fun d => ((u : ℕ), REvent.drop d))
        (by
          intro d x hdx
          simp only [] at hdx
          cases hmf : matchFor ((selP perf u).filterMap PerfEvent.dropPart) d
            with
          | some e => rw [hmf] at hdx; cases hdx
          | none => rw [hmf] at hdx; cases hdx; rfl)
        (selD prog u)
      rw [show (selD prog u).map (fun d => ((u : ℕ), REvent.drop d)) =
          (prog.filter (fun p => p.1 == u)).map
            (fun p => (p.1, REvent.drop p.2)) from by
        rw [selD, List.map_map]
        refine List.map_congr_left ?_
        intro p hp
        have hpu : p.1 = u := by
          simpa using (List.mem_filter.mp hp).2
        simp only [Function.comp]
        rw [hpu]] at hsub
      exact hsub
    have hL : ((joinAll blocks).filter
          (fun m => m.source == Source.program)).map
        (fun m => (m.tick, m.ev)) =
        joinAll (blocks.map (fun B =>
          (B.filter (fun m => m.source == Source.program)).map
            (fun m => (m.tick, m.ev)))) := by
      rw [filter_joinAll, map_joinAll, List.map_map]
      rfl
    have hR : prog.map (fun p => (p.1, REvent.drop p.2)) =
        joinAll ((tickUnion prog perf).map (fun u =>
          (prog.filter (fun p => p.1 == u)).map
            (fun p => (p.1, REvent.drop p.2)))) := by
      conv_lhs => rw [← hpart]
      rw [map_joinAll, List.map_map]
      rfl
    rw [hL, hR]
    exact joinAll_sublist hF
  · have hcov : ∀ q ∈ perf, q.1 ∈ tickUnion prog perf := fun q hq =>
      mem_tickUnion.mpr (Or.inr (List.mem_map_of_mem (·.1) hq))
    have hpart := joinAll_filter_partition hb hsort hcov
    have hF : List.Forall₂ (fun l₁ l₂ => l₁.Sublist l₂)
        (blocks.map (fun B =>
          (B.filter (fun m => m.source == Source.performance)).map
            (fun m => (m.tick, m.ev))))
        ((tickUnion prog perf).map (fun u =>
          (perf.filter (fun q => q.1 == u)).map
            (fun q => (q.1, perfEventToR q.2)))) := by
      refine forall₂_map hfa ?_
      intro u B hfu
      rw [reconcileTick_filter_performance hfu]
      have hsub := filterMap_map_sublist
        (fun q : PerfEvent =>
          match q with
          | .state se => some (MergedEvent.mk u .performance (.state se))
          | .drop e =>
            if hasProgMatch (selD prog u) e then none
            else some (MergedEvent.mk u .performance (.drop e.drop)))
        (fun m => (m.tick, m.ev))
        (fun q => ((u : ℕ), perfEventToR q))
        (by
          intro q x hqx
          cases q with
          | state se => cases hqx; rfl
          | drop e =>
            have hqx' : (if hasProgMatch (selD prog u) e then none
                else some (MergedEvent.mk u .performance (.drop e.drop))) =
                some x := hqx
            by_cases hpm : hasProgMatch (selD prog u) e = true
            · rw [if_pos hpm] at hqx'
              cases hqx'
            · rw [if_neg hpm] at hqx'
              cases hqx'
              rfl)
        (selP perf u)
      rw [show (selP perf u).map (fun q => ((u : ℕ), perfEventToR q)) =
          (perf.filter (fun q => q.1 == u)).map
            (fun q => (q.1, perfEventToR q.2)) from by
        rw [selP, List.map_map]
        refine List.map_congr_left ?_
        intro q hq
        have hqu : q.1 = u := by
          simpa using (List.mem_filter.mp hq).2
        simp only [Function.comp]
        rw [hqu]] at hsub
      exact hsub
    have hL : ((joinAll blocks).filter
          (fun m => m.source == Source.performance)).map
        (fun m => (m.tick, m.ev)) =
        joinAll (blocks.map (fun B =>
          (B.filter (fun m => m.source == Source.performance)).map
            (fun m => (m.tick, m.ev)))) := by
      rw [filter_joinAll, map_joinAll, List.map_map]
      rfl
    have hR : perf.map (fun q => (q.1, perfEventToR q.2)) =
        joinAll ((tickUnion prog perf).map (fun u =>
          (perf.filter (fun q => q.1 == u)).map
            (fun q => (q.1, perfEventToR q.2)))) := by
      conv_lhs => rw [← hpart]
      rw [map_joinAll, List.map_map]
      rfl
    rw [hL, hR]
    exact joinAll_sublist hF

/-- The program of the C3 witness: drops at ticks 0 and 2. -/
def c3Prog : List (ℕ × DropEvent) :=
  [(0, wBassdrumDrop), (2, .drum ⟨.snare⟩)]

/-- The performance of the C3 witness: a mute at tick 0 and a manual
bassdrum drop at tick 2. -/
def c3Perf : List (ℕ × PerfEvent) :=
  [(0, .state (.machineMute ⟨.bassdrum, true⟩)),
   (2, .drop ⟨wBassdrumDrop, .MANUAL⟩)]

/-- The merged result of the C3 witness. -/
def c3Merged : List MergedEvent :=
  [⟨0, .program, .drop wBassdrumDrop⟩,
   ⟨0, .performance, .state (.machineMute ⟨.bassdrum, true⟩)⟩,
   ⟨2, .program, .drop (.drum ⟨.snare⟩)⟩,
   ⟨2, .performance, .drop wBassdrumDrop⟩]

/-- Witness for C3 at a concrete two-tick merge. -/
theorem C3_merge_ordering_witness :
    mergeReconcile c3Prog c3Perf = .ok c3Merged ∧
    (c3Merged.Pairwise mergedRel ∧
      ((c3Merged.filter (fun m => m.source == Source.program)).map
          (fun m => (m.tick, m.ev))).Sublist
        (c3Prog.map (fun p => (p.1, REvent.drop p.2))) ∧
      ((c3Merged.filter (fun m => m.source == Source.performance)).map
          (fun m => (m.tick, m.ev))).Sublist
        (c3Perf.map (fun q => (q.1, perfEventToR q.2)))) :=
  ⟨rfl, C3_merge_ordering
    (show mergeReconcile c3Prog c3Perf = .ok c3Merged from rfl)⟩

/-- Two performance drop events at tick 50 on the snare channel. -/
def cConflictPerf : List (ℕ × PerfEvent) :=
  [(50, .drop ⟨.drum ⟨.snare⟩, .MANUAL⟩),
   (50, .drop ⟨.drum ⟨.snare⟩, .MANUAL⟩)]

/-- Witness for C2 at the spec's own example (two events at
tick 50 / snare). -/
theorem C2_conflicting_reconciliation_witness :
    ascendingBy ([] : List (ℕ × DropEvent)) = true ∧
    ascendingBy cConflictPerf = true ∧
    ¬ (perfDropTargets cConflictPerf).Nodup ∧
    mergeReconcile [] cConflictPerf = .error .ConflictingReconciliation :=
  ⟨rfl, by decide, by decide,
    C2_conflicting_reconciliation [] cConflictPerf rfl (by decide)
      (by decide)⟩

end Vmmx
